import Mathlib

/-!
Verification of the ordered-list maintenance logic of the Minibunn planner
backend (`apps/api/app/routes/tasks.py` and `apps/api/app/routes/backlogs.py`).

The persistent store is modelled as a list of rows.  `id` is the primary key
of both tables, so a row is identified by its `id`; theorems that need this
assume the ids in the store are pairwise distinct.  Python `date` values are
modelled as integers (only equality and order on dates matter here), and
nullable columns / optional JSON fields as `Option`.  A PATCH body produced by
pydantic's `model_dump(exclude_unset=True)` distinguishes "field absent" from
"field present with value null"; an update field is therefore an
`Option (Option _)`: the outer layer is presence, the inner one the value.

Each route either returns the new store (`Except.ok`) or raises an
`HTTPException` before committing anything (`Except.error`).  The two delete
routes commit twice; their `_run` versions expose both committed states.
-/

deriving instance DecidableEq for Except

namespace Minibunn

/-- Python truthiness of a nullable boolean (`if new_status:`). -/
def truthy : Option Bool → Bool
  | some true => true
  | _ => false

/-- A row of the `tasks` table (`app/models/task.py`). -/
structure Task where
  id : Nat
  user_id : Nat
  date : Option Int
  title : Option String
  note : Option String
  is_completed : Option Bool
  order : Int
deriving Repr, DecidableEq

/-- A row of the `backlogs` table (`app/models/backlog.py`). -/
structure Backlog where
  id : Nat
  user_id : Nat
  date : Int
  detail : Option String
  order : Int
deriving Repr, DecidableEq

/-- `TaskCreate` (`app/schemas/task.py`): body of POST /tasks/. -/
structure TaskCreate where
  date : Int
  title : Option String
  note : Option String
  is_completed : Bool
deriving Repr, DecidableEq

/-- `TaskUpdate` (`app/schemas/task.py`): body of PATCH /tasks/{id}, after
`model_dump(exclude_unset=True)`.  Outer `Option` = key present in the dump. -/
structure TaskUpdate where
  date : Option (Option Int)
  title : Option (Option String)
  note : Option (Option String)
  is_completed : Option (Option Bool)
  order : Option (Option Int)
deriving Repr, DecidableEq

/-- `BacklogCreate` (`app/schemas/backlog.py`). -/
structure BacklogCreate where
  detail : Option String
deriving Repr, DecidableEq

/-- `BacklogUpdate` (`app/schemas/backlog.py`), after `exclude_unset` dump. -/
structure BacklogUpdate where
  detail : Option (Option String)
  order : Option (Option Int)
deriving Repr, DecidableEq

/-- An `HTTPException` raised by a route. -/
inductive ApiError where
  | notFound (detail : String)
  | badRequest (detail : String)
deriving Repr, DecidableEq

/-- Rank comparison on task rows. -/
def taskLE (a b : Task) : Prop := a.order ≤ b.order

instance : DecidableRel taskLE := fun a b => (inferInstance : Decidable (a.order ≤ b.order))

instance : IsTotal Task taskLE := ⟨fun a b => le_total a.order b.order⟩

instance : IsTrans Task taskLE := ⟨fun _ _ _ hab hbc => le_trans hab hbc⟩

/-- Rank comparison on backlog rows. -/
def backlogLE (a b : Backlog) : Prop := a.order ≤ b.order

instance : DecidableRel backlogLE := fun a b => (inferInstance : Decidable (a.order ≤ b.order))

instance : IsTotal Backlog backlogLE := ⟨fun a b => le_total a.order b.order⟩

instance : IsTrans Backlog backlogLE := ⟨fun _ _ _ hab hbc => le_trans hab hbc⟩

/-- `.order_by(Task.order)`: a stable sort of the rows by rank. -/
def sortByOrder (l : List Task) : List Task :=
  l.insertionSort taskLE

/-- `.order_by(Backlog.order)`: a stable sort of the rows by rank. -/
def sortBacklogsByOrder (l : List Backlog) : List Backlog :=
  l.insertionSort backlogLE

/-- The grouping filter `Task.user_id == user_id, Task.date == d` that scopes
every rank operation on tasks. -/
def sameGroup (user_id : Nat) (d : Option Int) (t : Task) : Bool :=
  t.user_id == user_id && t.date == d

/-- The grouping filter `Backlog.user_id == user_id` (one group per owner). -/
def sameOwner (user_id : Nat) (b : Backlog) : Bool :=
  b.user_id == user_id

/-- `db.query(Task).filter(Task.id == task_id, Task.user_id == user_id).first()`. -/
def firstTask (db : List Task) (task_id user_id : Nat) : Option Task :=
  (db.filter (fun t => t.id == task_id && t.user_id == user_id)).head?

/-- The row of the task store with primary key `i` (ids are unique). -/
def rowById (db : List Task) (i : Nat) : Option Task :=
  (db.filter (fun t => t.id == i)).head?

/-- The rank of the task row with primary key `i`. -/
def orderById (db : List Task) (i : Nat) : Option Int :=
  (rowById db i).map (fun t => t.order)

/-- The row of the backlog store with primary key `i`. -/
def backlogById (db : List Backlog) (i : Nat) : Option Backlog :=
  (db.filter (fun b => b.id == i)).head?

/-- The rank of the backlog row with primary key `i`. -/
def backlogOrderById (db : List Backlog) (i : Nat) : Option Int :=
  (backlogById db i).map (fun b => b.order)

/-- `db.query(Backlog).filter(Backlog.id == backlog_id, Backlog.user_id == user_id).first()`. -/
def firstBacklog (db : List Backlog) (backlog_id user_id : Nat) : Option Backlog :=
  (db.filter (fun b => b.id == backlog_id && b.user_id == user_id)).head?

/-- GET /tasks/ (`get_tasks`): the date filter is applied only when both
`start` and `end` are given (`if start and end:`; a `date` is always truthy). -/
def get_tasks (db : List Task) (user_id : Nat) (start end_ : Option Int) : List Task :=
  let q := db.filter (fun t => t.user_id == user_id)
  let q := match start, end_ with
    | some s, some e =>
        q.filter (fun t => match t.date with
          | some d => decide (s ≤ d) && decide (d ≤ e)
          | none => false)
    | _, _ => q
  sortByOrder q

/-- POST /tasks/ (`create_task`): shift the (user, date) group up by one and
insert the new row at rank 1.  `new_id` stands for the fresh primary key the
database assigns. -/
def create_task (db : List Task) (user_id : Nat) (task : TaskCreate) (new_id : Nat) :
    List Task :=
  let shifted := db.map (fun t =>
    if sameGroup user_id (some task.date) t then
      { t with order := t.order + 1 }
    else t)
  shifted ++ [{ id := new_id, user_id := user_id, date := some task.date,
                title := task.title, note := task.note,
                is_completed := some task.is_completed, order := 1 }]

/-- Number of update groups hit by a PATCH /tasks body: the route builds
`groups = {date, order, text = {title, note}, completed}` and counts which
groups intersect the present fields. -/
def taskMatchedGroups (u : TaskUpdate) : Nat :=
  (if u.date.isSome then 1 else 0) +
  (if u.order.isSome then 1 else 0) +
  (if u.title.isSome || u.note.isSome then 1 else 0) +
  (if u.is_completed.isSome then 1 else 0)

/-- Number of update groups hit by a PATCH /backlogs body
(`groups = {order, detail}`). -/
def backlogMatchedGroups (u : BacklogUpdate) : Nat :=
  (if u.order.isSome then 1 else 0) +
  (if u.detail.isSome then 1 else 0)

/-- The single-pass directional shift applied to every other group member in
the order-update branch of `update_task` / `update_backlog`. -/
def shiftRank (current_order new_order t_order : Int) : Int :=
  if current_order < new_order then
    if current_order < t_order ∧ t_order ≤ new_order then t_order - 1 else t_order
  else
    if new_order ≤ t_order ∧ t_order < current_order then t_order + 1 else t_order

/-- PATCH /tasks/{task_id} (`update_task`).  Exactly one of the four field
groups may be present; the branches mirror the route's if/elif chain.  The
renumbering of the old day in the date branch assigns each remaining row the
1-based position of its id in the rank-sorted list (`enumerate(..., start=1)`). -/
def update_task (db : List Task) (task_id user_id : Nat) (updates : TaskUpdate) :
    Except ApiError (List Task) :=
  match firstTask db task_id user_id with
  | none => .error (.notFound "Task not found")
  | some task =>
    if taskMatchedGroups updates > 1 then
      .error (.badRequest
        "Only one type of update is allowed per request (order, title/note, or is_completed).")
    else match updates.date with
    | some new_date =>
      if new_date ≠ task.date then
        let old_day_tasks := sortByOrder (db.filter (fun t =>
          sameGroup user_id task.date t && t.id != task.id))
        .ok (db.map (fun t =>
          if t.id == task.id then { t with date := new_date, order := 1 }
          else if sameGroup user_id task.date t then
            { t with order := ((old_day_tasks.findIdx (fun m => m.id == t.id) : Nat) : Int) + 1 }
          else if sameGroup user_id new_date t then
            { t with order := t.order + 1 }
          else t))
      else .ok db
    | none => match updates.order with
    | some new_order? =>
      match new_order? with
      | none => .error (.badRequest "Order must be 1 or greater")
      | some n =>
        if n < 1 then .error (.badRequest "Order must be 1 or greater")
        else
          let same_day_tasks := db.filter (fun t =>
            sameGroup user_id task.date t && t.id != task_id)
          let max_order : Int := (same_day_tasks.length : Int) + 1
          let new_order := if n > max_order then max_order else n
          .ok (db.map (fun t =>
            if t.id == task_id then { t with order := new_order }
            else if sameGroup user_id task.date t then
              { t with order := shiftRank task.order new_order t.order }
            else t))
    | none =>
      if updates.title.isSome || updates.note.isSome then
        .ok (db.map (fun t =>
          if t.id == task_id then
            { t with title := updates.title.getD t.title,
                     note := updates.note.getD t.note }
          else t))
      else match updates.is_completed with
      | some new_status =>
        let same_day_len := (db.filter (fun t =>
          sameGroup user_id task.date t && t.id != task.id)).length
        if truthy new_status then
          .ok (db.map (fun t =>
            if t.id == task.id then
              { t with is_completed := new_status, order := (same_day_len : Int) + 1 }
            else if sameGroup user_id task.date t && t.order > task.order then
              { t with order := t.order - 1 }
            else t))
        else
          .ok (db.map (fun t =>
            if t.id == task.id then { t with is_completed := new_status, order := 1 }
            else if sameGroup user_id task.date t then
              { t with order := t.order + 1 }
            else t))
      | none => .ok db

/-- DELETE /tasks/{task_id} (`delete_task`), exposing both committed states:
the route commits the deletion first, then renumbers the remaining rows of the
task's date (`enumerate(..., start=1)` over the rank-sorted rows) and commits
again.  Returns (state after first commit, state after second commit). -/
def delete_task_run (db : List Task) (task_id user_id : Nat) :
    Except ApiError (List Task × List Task) :=
  match firstTask db task_id user_id with
  | none => .error (.notFound "Task not found")
  | some task =>
    let db1 := db.eraseP (fun t => t.id == task_id && t.user_id == user_id)
    let remaining := sortByOrder (db1.filter (fun t =>
      sameGroup user_id task.date t))
    let db2 := db1.map (fun t =>
      if sameGroup user_id task.date t then
        { t with order := ((remaining.findIdx (fun m => m.id == t.id) : Nat) : Int) + 1 }
      else t)
    .ok (db1, db2)

/-- DELETE /tasks/{task_id}: the state after the route finishes. -/
def delete_task (db : List Task) (task_id user_id : Nat) : Except ApiError (List Task) :=
  (delete_task_run db task_id user_id).map (fun s => s.2)

/-- GET /backlogs/ (`get_backlogs`). -/
def get_backlogs (db : List Backlog) (user_id : Nat) : List Backlog :=
  sortBacklogsByOrder (db.filter (fun b => b.user_id == user_id))

/-- POST /backlogs/ (`create_backlog`): shift every backlog of the user up by
one and insert the new row at rank 1 with `date = date.today()`. -/
def create_backlog (db : List Backlog) (user_id : Nat) (backlog : BacklogCreate)
    (new_id : Nat) (today : Int) : List Backlog :=
  let shifted := db.map (fun b =>
    if sameOwner user_id b then { b with order := b.order + 1 } else b)
  shifted ++ [{ id := new_id, user_id := user_id, date := today,
                detail := backlog.detail, order := 1 }]

/-- PATCH /backlogs/{backlog_id} (`update_backlog`). -/
def update_backlog (db : List Backlog) (backlog_id user_id : Nat)
    (updates : BacklogUpdate) (today : Int) : Except ApiError (List Backlog) :=
  match firstBacklog db backlog_id user_id with
  | none => .error (.notFound "Backlog not found")
  | some backlog =>
    if backlogMatchedGroups updates > 1 then
      .error (.badRequest "Only one type of update is allowed per request (order or detail).")
    else match updates.order with
    | some new_order? =>
      match new_order? with
      | none => .error (.badRequest "Order must be 1 or greater")
      | some n =>
        if n < 1 then .error (.badRequest "Order must be 1 or greater")
        else
          let other_backlogs := db.filter (fun b =>
            sameOwner user_id b && b.id != backlog_id)
          let max_order : Int := (other_backlogs.length : Int) + 1
          let new_order := if n > max_order then max_order else n
          .ok (db.map (fun b =>
            if b.id == backlog_id then { b with order := new_order }
            else if sameOwner user_id b then
              { b with order := shiftRank backlog.order new_order b.order }
            else b))
    | none =>
      if updates.detail.isSome then
        .ok (db.map (fun b =>
          if b.id == backlog_id then
            { b with detail := updates.detail.getD b.detail, date := today }
          else b))
      else .ok db

/-- DELETE /backlogs/{backlog_id} (`delete_backlog`), exposing both committed
states: the deletion is committed first, then every backlog of the user with a
rank above the deleted one is decremented and committed again. -/
def delete_backlog_run (db : List Backlog) (backlog_id user_id : Nat) :
    Except ApiError (List Backlog × List Backlog) :=
  match firstBacklog db backlog_id user_id with
  | none => .error (.notFound "Backlog not found")
  | some backlog =>
    let db1 := db.eraseP (fun b => b.id == backlog_id && b.user_id == user_id)
    let db2 := db1.map (fun b =>
      if sameOwner user_id b && b.order > backlog.order then
        { b with order := b.order - 1 }
      else b)
    .ok (db1, db2)

/-- DELETE /backlogs/{backlog_id}: the state after the route finishes. -/
def delete_backlog (db : List Backlog) (backlog_id user_id : Nat) :
    Except ApiError (List Backlog) :=
  (delete_backlog_run db backlog_id user_id).map (fun s => s.2)

/-- The rank list `[1, 2, ..., n]`. -/
def rangeRanks (n : Nat) : List Int :=
  (List.range n).map (fun (i : Nat) => (i : Int) + 1)

/-- The ranks of the (user, date) task group, in store order. -/
def taskRanks (db : List Task) (user_id : Nat) (d : Option Int) : List Int :=
  (db.filter (sameGroup user_id d)).map (fun t => t.order)

/-- The ranks of a user's backlog group, in store order. -/
def backlogRanks (db : List Backlog) (user_id : Nat) : List Int :=
  (db.filter (sameOwner user_id)).map (fun b => b.order)

/-- Dense ranks: the multiset of ranks is exactly {1, ..., N}. -/
def denseRanks (l : List Int) : Prop :=
  l.Perm (rangeRanks l.length)

instance (l : List Int) : Decidable (denseRanks l) := by
  unfold denseRanks; infer_instance

/-- Every (user, date) task group in the store has dense ranks.  (Groups with
no member are vacuously dense, so it is enough to quantify over rows.) -/
def TasksDense (db : List Task) : Prop :=
  ∀ t ∈ db, denseRanks (taskRanks db t.user_id t.date)

instance (db : List Task) : Decidable (TasksDense db) := by
  unfold TasksDense; infer_instance

/-- Every user's backlog group in the store has dense ranks. -/
def BacklogsDense (db : List Backlog) : Prop :=
  ∀ b ∈ db, denseRanks (backlogRanks db b.user_id)

instance (db : List Backlog) : Decidable (BacklogsDense db) := by
  unfold BacklogsDense; infer_instance

/-- Primary-key uniqueness of the task store. -/
def TaskIdsNodup (db : List Task) : Prop :=
  (db.map (fun t => t.id)).Nodup

instance (db : List Task) : Decidable (TaskIdsNodup db) := by
  unfold TaskIdsNodup; infer_instance

/-- Primary-key uniqueness of the backlog store. -/
def BacklogIdsNodup (db : List Backlog) : Prop :=
  (db.map (fun b => b.id)).Nodup

instance (db : List Backlog) : Decidable (BacklogIdsNodup db) := by
  unfold BacklogIdsNodup; infer_instance

/-- A concrete task row used by witnesses. -/
def sampleTask (i uid : Nat) (d ord : Int) : Task :=
  { id := i, user_id := uid, date := some d, title := some "", note := some "",
    is_completed := some false, order := ord }

/-- A concrete backlog row used by witnesses. -/
def sampleBacklog (i uid : Nat) (d ord : Int) : Backlog :=
  { id := i, user_id := uid, date := d, detail := some "", order := ord }

/-- A three-member dense group for user 1 on date 0. -/
def dbW : List Task := [sampleTask 1 1 0 1, sampleTask 2 1 0 2, sampleTask 3 1 0 3]

/-- A two-member dense group for user 1 on date 0. -/
def dbDel : List Task := [sampleTask 1 1 0 1, sampleTask 2 1 0 2]

/-- A two-member dense backlog group for user 1. -/
def dbDelB : List Backlog := [sampleBacklog 1 1 0 1, sampleBacklog 2 1 0 2]

/-- A three-member dense backlog group for user 1. -/
def dbWB : List Backlog := [sampleBacklog 1 1 0 1, sampleBacklog 2 1 0 2, sampleBacklog 3 1 0 3]

/-- A four-member dense group for user 1 on date 0. -/
def dbI : List Task :=
  [sampleTask 1 1 0 1, sampleTask 2 1 0 2, sampleTask 3 1 0 3, sampleTask 4 1 0 4]

/-- POST /tasks/ body used by the completion scenario. -/
def namedCreate (ttl : String) : TaskCreate :=
  { date := 0, title := some ttl, note := some "", is_completed := false }

/-- The scenario store: tasks A, B, C, D created in that order on one date by
front-insert, so the ranks are D=1, C=2, B=3, A=4 (ids A=10, B=11, C=12, D=13). -/
def dbC6 : List Task :=
  create_task
    (create_task
      (create_task
        (create_task [] 1 (namedCreate "A") 10)
        1 (namedCreate "B") 11)
      1 (namedCreate "C") 12)
    1 (namedCreate "D") 13

/-- PATCH body that marks a task completed. -/
def completeUpd : TaskUpdate :=
  { date := none, title := none, note := none, is_completed := some (some true), order := none }

/-- PATCH body that marks a task incomplete. -/
def incompleteUpd : TaskUpdate :=
  { date := none, title := none, note := none, is_completed := some (some false), order := none }

/-- PATCH body that only moves a task to rank `n` (or null when `v = none`). -/
def orderUpd (v : Option Int) : TaskUpdate :=
  { date := none, title := none, note := none, is_completed := none, order := some v }

/-- PATCH body that only moves a backlog to rank `n` (or null when `v = none`). -/
def orderUpdB (v : Option Int) : BacklogUpdate :=
  { detail := none, order := some v }

/-- Modelled from the spec: "it must produce the same dense-rank result as a
stable list removal+reinsertion at position requested_rank".  In a dense group
the rank of a member equals its 1-based position in the rank-sorted list, so
the spec's removal+reinsertion acts on ranks as follows: removing the member
at position `cur` shifts every position after `cur` down by one, and
reinserting it at position `r` shifts every resulting position at or after `r`
up by one (the reinserted item itself taking rank `r`). -/
def removeReinsertRank (cur r k : Int) : Int :=
  let afterRemoval := if cur < k then k - 1 else k
  if r ≤ afterRemoval then afterRemoval + 1 else afterRemoval

/-- The per-row shift of `create_task` (`order += 1` inside the (user, date)
group). -/
def createShiftFn (user_id : Nat) (d : Int) : Task → Task :=
  fun t => if sameGroup user_id (some d) t then { t with order := t.order + 1 } else t

/-- The row inserted by `create_task`. -/
def createdRow (user_id : Nat) (c : TaskCreate) (new_id : Nat) : Task :=
  { id := new_id, user_id := user_id, date := some c.date, title := c.title,
    note := c.note, is_completed := some c.is_completed, order := 1 }

/-- The per-row renumbering applied by `delete_task` after the first commit:
each remaining member of the group gets the 1-based position of its id in the
rank-sorted member list. -/
def renumberFn (db1 : List Task) (user_id : Nat) (d : Option Int) : Task → Task :=
  fun t =>
    if sameGroup user_id d t then
      { t with order := (((sortByOrder (db1.filter (sameGroup user_id d))).findIdx
          (fun m => m.id == t.id) : Nat) : Int) + 1 }
    else t

/-- PATCH body whose only present field is `date` (value `v`). -/
def dateUpd (v : Option Int) : TaskUpdate :=
  { date := some v, title := none, note := none, is_completed := none, order := none }

/-- The per-row transformation of the date-change branch of `update_task`:
the target moves to the new date at rank 1, the old day renumbers by sorted
position, and the new day shifts up by one. -/
def regroupFn (db : List Task) (task : Task) (new_date : Option Int) : Task → Task :=
  fun t =>
    if t.id == task.id then { t with date := new_date, order := 1 }
    else if sameGroup task.user_id task.date t then
      { t with order := (((sortByOrder (db.filter (fun x =>
          sameGroup task.user_id task.date x && x.id != task.id))).findIdx
            (fun m => m.id == t.id) : Nat) : Int) + 1 }
    else if sameGroup task.user_id new_date t then { t with order := t.order + 1 }
    else t

/-- The id-to-rank view of a PATCH result. -/
def rankView (r : Except ApiError (List Task)) : Except ApiError (List (Nat × Int)) :=
  r.map (fun db => db.map (fun t => (t.id, t.order)))

/-- The per-row transformation of the order-update branch of `update_task`:
clamp the requested rank to `max_order`, set the target to it, and shift the
other group members. -/
def moveFn (db : List Task) (task : Task) (n : Int) : Task → Task :=
  let max_order : Int :=
    ((db.filter (fun t => sameGroup task.user_id task.date t && t.id != task.id)).length : Int) + 1
  let new_order := if n > max_order then max_order else n
  fun t =>
    if t.id == task.id then { t with order := new_order }
    else if sameGroup task.user_id task.date t then
      { t with order := shiftRank task.order new_order t.order }
    else t

/-- PATCH body whose only present field is `is_completed` (value `v`). -/
def completedUpd (v : Option Bool) : TaskUpdate :=
  { date := none, title := none, note := none, is_completed := some v, order := none }

/-- The per-row transformation of the is_completed branch when the new value is truthy. -/
def completeTrueFn (db : List Task) (task : Task) (v : Option Bool) : Task → Task :=
  let same_day_len := (db.filter (fun t =>
    sameGroup task.user_id task.date t && t.id != task.id)).length
  fun t =>
    if t.id == task.id then
      { t with is_completed := v, order := (same_day_len : Int) + 1 }
    else if sameGroup task.user_id task.date t && t.order > task.order then
      { t with order := t.order - 1 }
    else t

/-- The per-row transformation of the is_completed branch when the new value is falsy. -/
def completeFalseFn (task : Task) (v : Option Bool) : Task → Task :=
  fun t =>
    if t.id == task.id then { t with is_completed := v, order := 1 }
    else if sameGroup task.user_id task.date t then { t with order := t.order + 1 }
    else t

/-- The per-row transformation of the order-update branch of `update_backlog`. -/
def moveFnB (db : List Backlog) (backlog : Backlog) (n : Int) : Backlog → Backlog :=
  let max_order : Int :=
    ((db.filter (fun b => sameOwner backlog.user_id b && b.id != backlog.id)).length : Int) + 1
  let new_order := if n > max_order then max_order else n
  fun b =>
    if b.id == backlog.id then { b with order := new_order }
    else if sameOwner backlog.user_id b then
      { b with order := shiftRank backlog.order new_order b.order }
    else b

/- ------------------------------------------------------------------ -/
/- Library: dense rank lists                                          -/
/- ------------------------------------------------------------------ -/

theorem rangeRanks_length (n : Nat) : (rangeRanks n).length = n := by
  simp [rangeRanks]

theorem rangeRanks_succ (n : Nat) : rangeRanks (n + 1) = rangeRanks n ++ [(n : Int) + 1] := by
  unfold rangeRanks
  rw [List.range_succ, List.map_append]
  rfl

theorem mem_rangeRanks {k : Int} {n : Nat} : k ∈ rangeRanks n ↔ 1 ≤ k ∧ k ≤ (n : Int) := by
  unfold rangeRanks
  simp only [List.mem_map, List.mem_range]
  constructor
  · rintro ⟨i, hi, rfl⟩; omega
  · rintro ⟨h1, h2⟩; exact ⟨(k - 1).toNat, by omega, by omega⟩

theorem rangeRanks_nodup (n : Nat) : (rangeRanks n).Nodup :=
  (List.nodup_range n).map (fun a b h => by omega)

theorem denseRanks_of_nodup_of_bounds {l : List Int} (hn : l.Nodup)
    (hb : ∀ k ∈ l, 1 ≤ k ∧ k ≤ (l.length : Int)) : denseRanks l := by
  show l.Perm (rangeRanks l.length)
  refine List.perm_of_nodup_nodup_toFinset_eq hn (rangeRanks_nodup _) ?_
  refine Finset.eq_of_subset_of_card_le ?_ ?_
  · intro x hx
    rw [List.mem_toFinset] at hx ⊢
    exact mem_rangeRanks.2 (hb x hx)
  · rw [List.toFinset_card_of_nodup (rangeRanks_nodup _),
      List.toFinset_card_of_nodup hn, rangeRanks_length]

theorem denseRanks_nodup {l : List Int} (h : denseRanks l) : l.Nodup :=
  (List.Perm.nodup_iff h).2 (rangeRanks_nodup _)

theorem denseRanks_bounds {l : List Int} (h : denseRanks l) {k : Int} (hk : k ∈ l) :
    1 ≤ k ∧ k ≤ (l.length : Int) :=
  mem_rangeRanks.1 ((List.Perm.mem_iff h).1 hk)

theorem denseRanks_mem {l : List Int} (h : denseRanks l) {k : Int}
    (h1 : 1 ≤ k) (h2 : k ≤ (l.length : Int)) : k ∈ l :=
  (List.Perm.mem_iff h).2 (mem_rangeRanks.2 ⟨h1, h2⟩)

theorem countP_lt_rangeRanks {n : Nat} {v : Int} (h1 : 1 ≤ v) (h2 : v ≤ (n : Int)) :
    (rangeRanks n).countP (fun k => decide (k < v)) = (v - 1).toNat := by
  revert h2
  induction n with
  | zero => intro h2; exact absurd (le_trans h1 h2) (by norm_num)
  | succ m ih =>
    intro h2
    rw [rangeRanks_succ, List.countP_append]
    by_cases hv : v ≤ (m : Int)
    · have hlast : (decide ((m : Int) + 1 < v)) = false := by
        simp only [decide_eq_false_iff_not]; omega
      simp [List.countP_cons, hlast, ih hv]
    · have hall : (rangeRanks m).countP (fun k => decide (k < v)) = m := by
        rw [List.countP_eq_length.2, rangeRanks_length]
        intro a ha
        have := mem_rangeRanks.1 ha
        simp only [decide_eq_true_eq]; omega
      have hlast : (decide ((m : Int) + 1 < v)) = false := by
        simp only [decide_eq_false_iff_not]; omega
      simp [List.countP_cons, hlast, hall]
      omega

/- ------------------------------------------------------------------ -/
/- Library: the directional shift                                     -/
/- ------------------------------------------------------------------ -/

theorem shiftRank_self (c k : Int) : shiftRank c c k = k := by
  unfold shiftRank; split_ifs <;> omega

theorem shiftRank_inj {c r k1 k2 : Int} (h1 : k1 ≠ c) (h2 : k2 ≠ c)
    (h : shiftRank c r k1 = shiftRank c r k2) : k1 = k2 := by
  unfold shiftRank at h; split_ifs at h <;> omega

theorem shiftRank_ne_target {c r k : Int} (hk : k ≠ c) : shiftRank c r k ≠ r := by
  unfold shiftRank; split_ifs <;> omega

theorem shiftRank_bounds {c r k N : Int} (hc : 1 ≤ c ∧ c ≤ N) (hr : 1 ≤ r ∧ r ≤ N)
    (hk : 1 ≤ k ∧ k ≤ N) : 1 ≤ shiftRank c r k ∧ shiftRank c r k ≤ N := by
  unfold shiftRank; split_ifs <;> omega

/-- Moving the member with rank `cur` to a clamped rank `r` keeps the rank
multiset dense. -/
theorem denseRanks_move {l : List Int} {cur r : Int} (hl : denseRanks l)
    (hcur : cur ∈ l) (hr1 : 1 ≤ r) (hrN : r ≤ (l.length : Int)) :
    denseRanks (l.map (fun k => if k = cur then r else shiftRank cur r k)) := by
  apply denseRanks_of_nodup_of_bounds
  · refine List.Nodup.map_on ?_ (denseRanks_nodup hl)
    intro x hx y hy hxy
    by_cases hxc : x = cur <;> by_cases hyc : y = cur
    · rw [hxc, hyc]
    · rw [if_pos hxc, if_neg hyc] at hxy
      exact absurd hxy.symm (shiftRank_ne_target hyc)
    · rw [if_neg hxc, if_pos hyc] at hxy
      exact absurd hxy (shiftRank_ne_target hxc)
    · rw [if_neg hxc, if_neg hyc] at hxy
      exact shiftRank_inj hxc hyc hxy
  · simp only [List.length_map]
    intro k hk
    obtain ⟨x, hx, rfl⟩ := List.mem_map.1 hk
    by_cases hxc : x = cur
    · rw [if_pos hxc]; exact ⟨hr1, hrN⟩
    · rw [if_neg hxc]
      exact shiftRank_bounds (denseRanks_bounds hl hcur) ⟨hr1, hrN⟩ (denseRanks_bounds hl hx)

/- ------------------------------------------------------------------ -/
/- Library: store lemmas                                              -/
/- ------------------------------------------------------------------ -/

theorem filter_of_map {α β : Type} (l : List α) (f : α → β) (p : β → Bool) :
    (l.map f).filter p = (l.filter (fun x => p (f x))).map f := by
  rw [List.filter_map]; rfl

theorem head?_filter_eq {α : Type} [DecidableEq α] {l : List α} {x : α} {q : α → Bool}
    (hnd : l.Nodup) (hmem : x ∈ l) (hq : ∀ y ∈ l, q y = (y == x)) :
    (l.filter q).head? = some x := by
  rw [List.filter_congr hq, List.filter_beq, List.count_eq_one_of_mem hnd hmem]
  rfl

theorem task_eq_of_id_eq {db : List Task} (hid : TaskIdsNodup db) :
    ∀ ⦃x : Task⦄, x ∈ db → ∀ ⦃y : Task⦄, y ∈ db → x.id = y.id → x = y :=
  List.inj_on_of_nodup_map hid

theorem firstTask_eq {db : List Task} {task : Task} (hid : TaskIdsNodup db)
    (hmem : task ∈ db) : firstTask db task.id task.user_id = some task := by
  unfold firstTask
  apply head?_filter_eq (List.Nodup.of_map _ hid) hmem
  intro y hy
  by_cases hxy : y = task
  · subst hxy; simp
  · have hne : y.id ≠ task.id := fun h => hxy (task_eq_of_id_eq hid hy hmem h)
    rw [beq_eq_false_iff_ne.2 hne, beq_eq_false_iff_ne.2 hxy, Bool.false_and]

theorem rowById_eq {db : List Task} {task : Task} (hid : TaskIdsNodup db)
    (hmem : task ∈ db) : rowById db task.id = some task := by
  unfold rowById
  apply head?_filter_eq (List.Nodup.of_map _ hid) hmem
  intro y hy
  by_cases hxy : y = task
  · subst hxy; simp
  · have hne : y.id ≠ task.id := fun h => hxy (task_eq_of_id_eq hid hy hmem h)
    simp [hne, hxy]

theorem rowById_map {db : List Task} {f : Task → Task} (hfid : ∀ t, (f t).id = t.id)
    (i : Nat) : rowById (db.map f) i = (rowById db i).map f := by
  unfold rowById
  rw [filter_of_map, List.head?_map]
  congr 2
  apply List.filter_congr
  intro y _
  rw [hfid]

theorem backlog_eq_of_id_eq {db : List Backlog} (hid : BacklogIdsNodup db) :
    ∀ ⦃x : Backlog⦄, x ∈ db → ∀ ⦃y : Backlog⦄, y ∈ db → x.id = y.id → x = y :=
  List.inj_on_of_nodup_map hid

theorem firstBacklog_eq {db : List Backlog} {b : Backlog} (hid : BacklogIdsNodup db)
    (hmem : b ∈ db) : firstBacklog db b.id b.user_id = some b := by
  unfold firstBacklog
  apply head?_filter_eq (List.Nodup.of_map _ hid) hmem
  intro y hy
  by_cases hxy : y = b
  · subst hxy; simp
  · have hne : y.id ≠ b.id := fun h => hxy (backlog_eq_of_id_eq hid hy hmem h)
    rw [beq_eq_false_iff_ne.2 hne, beq_eq_false_iff_ne.2 hxy, Bool.false_and]

theorem backlogById_eq {db : List Backlog} {b : Backlog} (hid : BacklogIdsNodup db)
    (hmem : b ∈ db) : backlogById db b.id = some b := by
  unfold backlogById
  apply head?_filter_eq (List.Nodup.of_map _ hid) hmem
  intro y hy
  by_cases hxy : y = b
  · subst hxy; simp
  · have hne : y.id ≠ b.id := fun h => hxy (backlog_eq_of_id_eq hid hy hmem h)
    simp [hne, hxy]

theorem backlogById_map {db : List Backlog} {f : Backlog → Backlog}
    (hfid : ∀ b, (f b).id = b.id) (i : Nat) :
    backlogById (db.map f) i = (backlogById db i).map f := by
  unfold backlogById
  rw [filter_of_map, List.head?_map]
  congr 2
  apply List.filter_congr
  intro y _
  rw [hfid]

theorem TasksDense_iff {db : List Task} :
    TasksDense db ↔ ∀ uid d, denseRanks (taskRanks db uid d) := by
  constructor
  · intro h uid d
    rcases hne : db.filter (sameGroup uid d) with _ | ⟨t, ts⟩
    · unfold taskRanks
      rw [hne]
      decide
    · have htmem : t ∈ db.filter (sameGroup uid d) := by
        rw [hne]; exact List.mem_cons_self _ _
      obtain ⟨hdb, hsg⟩ := List.mem_filter.1 htmem
      have hud : t.user_id = uid ∧ t.date = d := by
        unfold sameGroup at hsg
        simpa using hsg
      have := h t hdb
      rwa [hud.1, hud.2] at this
  · intro h t _
    exact h _ _

theorem BacklogsDense_iff {db : List Backlog} :
    BacklogsDense db ↔ ∀ uid, denseRanks (backlogRanks db uid) := by
  constructor
  · intro h uid
    rcases hne : db.filter (sameOwner uid) with _ | ⟨b, bs⟩
    · unfold backlogRanks
      rw [hne]
      decide
    · have hbmem : b ∈ db.filter (sameOwner uid) := by
        rw [hne]; exact List.mem_cons_self _ _
      obtain ⟨hdb, hsg⟩ := List.mem_filter.1 hbmem
      have hud : b.user_id = uid := by
        unfold sameOwner at hsg
        simpa using hsg
      have := h b hdb
      rwa [hud] at this
  · intro h b _
    exact h _

theorem taskRanks_map_eq {db : List Task} {f : Task → Task} (uid : Nat) (d : Option Int)
    (hfu : ∀ t, (f t).user_id = t.user_id) (hfd : ∀ t, (f t).date = t.date) :
    taskRanks (db.map f) uid d = (db.filter (sameGroup uid d)).map (fun t => (f t).order) := by
  unfold taskRanks
  rw [filter_of_map, List.map_map]
  congr 1
  apply List.filter_congr
  intro y _
  unfold sameGroup
  rw [hfu, hfd]

theorem backlogRanks_map_eq {db : List Backlog} {f : Backlog → Backlog} (uid : Nat)
    (hfu : ∀ b, (f b).user_id = b.user_id) :
    backlogRanks (db.map f) uid = (db.filter (sameOwner uid)).map (fun b => (f b).order) := by
  unfold backlogRanks
  rw [filter_of_map, List.map_map]
  congr 1
  apply List.filter_congr
  intro y _
  unfold sameOwner
  rw [hfu]

/-- Splitting a filtered selection by a second predicate. -/
theorem length_filter_split {α : Type} (l : List α) (p q : α → Bool) :
    (l.filter p).length =
      (l.filter (fun t => p t && q t)).length +
      (l.filter (fun t => p t && !(q t))).length := by
  induction l with
  | nil => rfl
  | cons a t ih =>
    by_cases hp : p a <;> by_cases hq : q a <;>
      simp [List.filter_cons, hp, hq, ih] <;> omega

/-- With unique keys, excluding the row `x` from a filtered selection that
contains it drops its length by exactly one. -/
theorem length_filter_and_ne {α : Type} [DecidableEq α] (l : List α) (key : α → Nat)
    (x : α) (p : α → Bool) (hk : (l.map key).Nodup) (hmem : x ∈ l) (hp : p x = true) :
    (l.filter (fun t => p t && key t != key x)).length + 1 = (l.filter p).length := by
  have hinj := List.inj_on_of_nodup_map hk
  have hnd : l.Nodup := List.Nodup.of_map key hk
  have hone : (l.filter (fun t => p t && key t == key x)).length = 1 := by
    have hcongr : ∀ y ∈ l, (p y && key y == key x) = (y == x) := by
      intro y hy
      by_cases hxy : y = x
      · subst hxy; simp [hp]
      · have hne : key y ≠ key x := fun h => hxy (hinj hy hmem h)
        rw [beq_eq_false_iff_ne.2 hne, beq_eq_false_iff_ne.2 hxy, Bool.and_false]
    rw [List.filter_congr hcongr, List.filter_beq, List.count_eq_one_of_mem hnd hmem]
    rfl
  have hsplit := length_filter_split l p (fun t => key t == key x)
  have hbne : (fun t => p t && !(key t == key x)) = (fun t => p t && key t != key x) := rfl
  rw [hbne] at hsplit
  omega

theorem moveFn_id (db : List Task) (task : Task) (n : Int) (t : Task) :
    (moveFn db task n t).id = t.id := by
  unfold moveFn; split_ifs <;> rfl

theorem moveFn_user_id (db : List Task) (task : Task) (n : Int) (t : Task) :
    (moveFn db task n t).user_id = t.user_id := by
  unfold moveFn; split_ifs <;> rfl

theorem moveFn_date (db : List Task) (task : Task) (n : Int) (t : Task) :
    (moveFn db task n t).date = t.date := by
  unfold moveFn; split_ifs <;> rfl

theorem moveFnB_id (db : List Backlog) (backlog : Backlog) (n : Int) (b : Backlog) :
    (moveFnB db backlog n b).id = b.id := by
  unfold moveFnB; split_ifs <;> rfl

theorem moveFnB_user_id (db : List Backlog) (backlog : Backlog) (n : Int) (b : Backlog) :
    (moveFnB db backlog n b).user_id = b.user_id := by
  unfold moveFnB; split_ifs <;> rfl

/-- The order-update branch of `update_task` with a valid requested rank. -/
theorem update_task_order_ok {db : List Task} {task : Task} {n : Int}
    (hfind : firstTask db task.id task.user_id = some task) (h1 : 1 ≤ n) :
    update_task db task.id task.user_id (orderUpd (some n)) =
      .ok (db.map (moveFn db task n)) := by
  unfold update_task
  rw [hfind]
  have hg : taskMatchedGroups (orderUpd (some n)) = 1 := rfl
  rw [hg]
  simp only [gt_iff_lt, Nat.lt_irrefl, if_false, orderUpd]
  rw [if_neg (by omega : ¬ n < 1)]
  rfl

/-- The order-update branch of `update_task` with a null or non-positive rank. -/
theorem update_task_order_invalid {db : List Task} {task : Task} {v : Option Int}
    (hfind : firstTask db task.id task.user_id = some task)
    (hv : v = none ∨ ∃ n, v = some n ∧ n < 1) :
    update_task db task.id task.user_id (orderUpd v) =
      .error (.badRequest "Order must be 1 or greater") := by
  rcases hv with rfl | ⟨m, rfl, hm⟩ <;>
    [skip;
     skip] <;>
    unfold update_task <;> rw [hfind] <;>
    rw [show taskMatchedGroups (orderUpd _) = 1 from rfl] <;>
    simp only [gt_iff_lt, Nat.lt_irrefl, if_false, orderUpd]
  split
  · rfl
  · omega

/-- The order-update branch of `update_backlog` with a valid requested rank. -/
theorem update_backlog_order_ok {db : List Backlog} {backlog : Backlog} {n today : Int}
    (hfind : firstBacklog db backlog.id backlog.user_id = some backlog) (h1 : 1 ≤ n) :
    update_backlog db backlog.id backlog.user_id (orderUpdB (some n)) today =
      .ok (db.map (moveFnB db backlog n)) := by
  unfold update_backlog
  rw [hfind]
  have hg : backlogMatchedGroups (orderUpdB (some n)) = 1 := rfl
  rw [hg]
  simp only [gt_iff_lt, Nat.lt_irrefl, if_false, orderUpdB]
  rw [if_neg (by omega : ¬ n < 1)]
  rfl

/-- The order-update branch of `update_backlog` with a null or non-positive rank. -/
theorem update_backlog_order_invalid {db : List Backlog} {backlog : Backlog} {v : Option Int}
    {today : Int} (hfind : firstBacklog db backlog.id backlog.user_id = some backlog)
    (hv : v = none ∨ ∃ n, v = some n ∧ n < 1) :
    update_backlog db backlog.id backlog.user_id (orderUpdB v) today =
      .error (.badRequest "Order must be 1 or greater") := by
  rcases hv with rfl | ⟨m, rfl, hm⟩ <;>
    [skip;
     skip] <;>
    unfold update_backlog <;> rw [hfind] <;>
    rw [show backlogMatchedGroups (orderUpdB _) = 1 from rfl] <;>
    simp only [gt_iff_lt, Nat.lt_irrefl, if_false, orderUpdB]
  split
  · rfl
  · omega

theorem completeTrueFn_id (db : List Task) (task : Task) (v : Option Bool) (t : Task) :
    (completeTrueFn db task v t).id = t.id := by
  unfold completeTrueFn; split_ifs <;> rfl

theorem completeFalseFn_id (task : Task) (v : Option Bool) (t : Task) :
    (completeFalseFn task v t).id = t.id := by
  unfold completeFalseFn; split_ifs <;> rfl

theorem update_task_completed_true {db : List Task} {task : Task} {v : Option Bool}
    (hfind : firstTask db task.id task.user_id = some task) (hv : truthy v = true) :
    update_task db task.id task.user_id (completedUpd v) =
      .ok (db.map (completeTrueFn db task v)) := by
  unfold update_task
  rw [hfind]
  rw [show taskMatchedGroups (completedUpd v) = 1 from rfl]
  simp only [gt_iff_lt, Nat.lt_irrefl, if_false, completedUpd, hv]
  rfl

theorem update_task_completed_false {db : List Task} {task : Task} {v : Option Bool}
    (hfind : firstTask db task.id task.user_id = some task) (hv : truthy v = false) :
    update_task db task.id task.user_id (completedUpd v) =
      .ok (db.map (completeFalseFn task v)) := by
  unfold update_task
  rw [hfind]
  rw [show taskMatchedGroups (completedUpd v) = 1 from rfl]
  simp only [gt_iff_lt, Nat.lt_irrefl, if_false, completedUpd, hv]
  rfl

/-- Off the moved member, the single-pass shift agrees with the spec's
removal+reinsertion position arithmetic. -/
theorem shiftRank_eq_removeReinsert {c r k : Int} (hk : k ≠ c) :
    shiftRank c r k = removeReinsertRank c r k := by
  unfold shiftRank removeReinsertRank
  dsimp only
  split_ifs <;> omega

theorem sortByOrder_perm (l : List Task) : (sortByOrder l).Perm l :=
  List.perm_insertionSort _ _

theorem sortByOrder_sorted (l : List Task) : List.Sorted taskLE (sortByOrder l) :=
  List.sorted_insertionSort _ _

theorem findIdx_of_get {s : List Task} (hs : (s.map (fun t => t.id)).Nodup) :
    ∀ (i : Nat) (h : i < s.length),
      s.findIdx (fun m => m.id == (s.get ⟨i, h⟩).id) = i := by
  induction s with
  | nil => intro i h; exact absurd h (by simp)
  | cons a rest ih =>
    intro i h
    cases i with
    | zero =>
      simp [List.findIdx_cons]
    | succ j =>
      have hji : j < rest.length := by simpa using h
      have htar : (((a :: rest).get ⟨j + 1, h⟩)) = rest.get ⟨j, hji⟩ := rfl
      rw [htar]
      have hmem : rest.get ⟨j, hji⟩ ∈ rest := List.get_mem rest j hji
      have hane : (a.id == (rest.get ⟨j, hji⟩).id) = false := by
        refine beq_eq_false_iff_ne.2 (fun hcontra => ?_)
        have : a.id ∈ rest.map (fun t => t.id) := by
          rw [hcontra]
          exact List.mem_map_of_mem _ hmem
        exact (List.nodup_cons.1 hs).1 this
      rw [List.findIdx_cons, hane]
      simp only [cond_false]
      rw [ih (List.nodup_cons.1 hs).2 j hji]

theorem map_findIdx_eq_range {s : List Task} (hs : (s.map (fun t => t.id)).Nodup) :
    s.map (fun t => s.findIdx (fun m => m.id == t.id)) = List.range s.length := by
  apply List.ext_get (by simp)
  intro n h1 h2
  rw [List.get_map, List.get_range]
  exact findIdx_of_get hs n (by simpa using h1)

/-- Renumbering a group of rows by the 1-based position of each row in the
rank-sorted list always produces dense ranks. -/
theorem denseRanks_renumber {m : List Task} (hid : (m.map (fun t => t.id)).Nodup) :
    denseRanks (m.map (fun t =>
      (((sortByOrder m).findIdx (fun x => x.id == t.id) : Nat) : Int) + 1)) := by
  have hperm : (sortByOrder m).Perm m := sortByOrder_perm m
  have hidS : ((sortByOrder m).map (fun t => t.id)).Nodup :=
    ((hperm.map (fun t => t.id)).nodup_iff).2 hid
  have hmap : (sortByOrder m).map (fun t =>
      (((sortByOrder m).findIdx (fun x => x.id == t.id) : Nat) : Int) + 1) =
      rangeRanks (sortByOrder m).length := by
    have h1 := map_findIdx_eq_range hidS
    calc (sortByOrder m).map (fun t =>
          (((sortByOrder m).findIdx (fun x => x.id == t.id) : Nat) : Int) + 1)
        = ((sortByOrder m).map (fun t =>
            (sortByOrder m).findIdx (fun x => x.id == t.id))).map
              (fun (n : Nat) => (n : Int) + 1) := by
          rw [List.map_map]; rfl
      _ = (List.range (sortByOrder m).length).map (fun (n : Nat) => (n : Int) + 1) := by rw [h1]
      _ = rangeRanks (sortByOrder m).length := rfl
  show List.Perm _ (rangeRanks _)
  have hlen : (m.map (fun t =>
      (((sortByOrder m).findIdx (fun x => x.id == t.id) : Nat) : Int) + 1)).length =
      (sortByOrder m).length := by
    simp [hperm.length_eq]
  rw [hlen]
  calc m.map (fun t => (((sortByOrder m).findIdx (fun x => x.id == t.id) : Nat) : Int) + 1)
      |>.Perm ((sortByOrder m).map (fun t =>
        (((sortByOrder m).findIdx (fun x => x.id == t.id) : Nat) : Int) + 1)) :=
        (hperm.map _).symm
    _ = rangeRanks (sortByOrder m).length := hmap

theorem countP_lt_of_pairwise_lt {l : List Int} (hl : l.Pairwise (· < ·)) :
    ∀ (i : Nat) (h : i < l.length),
      l.countP (fun x => decide (x < l.get ⟨i, h⟩)) = i := by
  induction l with
  | nil => intro i h; exact absurd h (by simp)
  | cons a rest ih =>
    intro i h
    cases i with
    | zero =>
      have hget : ((a :: rest).get ⟨0, h⟩) = a := rfl
      rw [hget, List.countP_cons]
      have h1 : rest.countP (fun x => decide (x < a)) = 0 := by
        rw [List.countP_eq_zero]
        intro x hx
        have := (List.pairwise_cons.1 hl).1 x hx
        simp only [decide_eq_true_eq]
        omega
      simp [h1]
    | succ j =>
      have hji : j < rest.length := by simpa using h
      have hget : ((a :: rest).get ⟨j + 1, h⟩) = rest.get ⟨j, hji⟩ := rfl
      rw [hget, List.countP_cons]
      have ha : a < rest.get ⟨j, hji⟩ :=
        (List.pairwise_cons.1 hl).1 _ (List.get_mem rest j hji)
      have htail : List.countP (fun x => decide (x < rest[j])) rest = j :=
        ih (List.pairwise_cons.1 hl).2 j hji
      have ha' : a < rest[j] := ha
      simp [htail, ha']

theorem findIdx_sortByOrder_eq_countP {m : List Task}
    (hid : (m.map (fun t => t.id)).Nodup)
    (hord : (m.map (fun t => t.order)).Nodup) {t : Task} (ht : t ∈ m) :
    (sortByOrder m).findIdx (fun x => x.id == t.id) =
      m.countP (fun x => decide (x.order < t.order)) := by
  have hperm : (sortByOrder m).Perm m := sortByOrder_perm m
  have hidS : ((sortByOrder m).map (fun x => x.id)).Nodup :=
    ((hperm.map (fun x => x.id)).nodup_iff).2 hid
  have hordS : ((sortByOrder m).map (fun x => x.order)).Nodup :=
    ((hperm.map (fun x => x.order)).nodup_iff).2 hord
  have hpairLE : ((sortByOrder m).map (fun x => x.order)).Pairwise (· ≤ ·) := by
    rw [List.pairwise_map]
    exact sortByOrder_sorted m
  have hpairLT : ((sortByOrder m).map (fun x => x.order)).Pairwise (· < ·) :=
    (hpairLE.and hordS).imp (fun h => lt_of_le_of_ne h.1 h.2)
  obtain ⟨⟨i, hi⟩, hgi⟩ := List.mem_iff_get.1 (hperm.mem_iff.2 ht)
  have hfind : (sortByOrder m).findIdx (fun x => x.id == t.id) = i := by
    have := findIdx_of_get hidS i hi
    rwa [hgi] at this
  have hcount : (sortByOrder m).countP (fun x => decide (x.order < t.order)) = i := by
    have hmaplen : i < ((sortByOrder m).map (fun x => x.order)).length := by simpa using hi
    have h2 := countP_lt_of_pairwise_lt hpairLT i hmaplen
    have h3 : ((sortByOrder m).map (fun x => x.order)).get ⟨i, hmaplen⟩ = t.order := by
      rw [List.get_map]
      show ((sortByOrder m).get ⟨i, hi⟩).order = t.order
      rw [hgi]
    rw [h3] at h2
    have h4 : (sortByOrder m).countP (fun x => decide (x.order < t.order)) =
        ((sortByOrder m).map (fun x => x.order)).countP (fun k => decide (k < t.order)) :=
      (List.countP_map (fun k => decide (k < t.order)) (fun (x : Task) => x.order)
        (sortByOrder m)).symm
    rw [h4, h2]
  rw [hfind, ← hperm.countP_eq, hcount]

theorem filter_sameGroup_map {db : List Task} {f : Task → Task} (uid : Nat) (d : Option Int)
    (hfu : ∀ t, (f t).user_id = t.user_id) (hfd : ∀ t, (f t).date = t.date) :
    (db.map f).filter (sameGroup uid d) = (db.filter (sameGroup uid d)).map f := by
  rw [filter_of_map]
  congr 1
  apply List.filter_congr
  intro y _
  unfold sameGroup
  rw [hfu, hfd]

theorem TaskIdsNodup_map {db : List Task} {f : Task → Task}
    (hfid : ∀ t, (f t).id = t.id) (hid : TaskIdsNodup db) : TaskIdsNodup (db.map f) := by
  unfold TaskIdsNodup at *
  rw [List.map_map]
  have : ((fun t => t.id) ∘ f) = (fun (t : Task) => t.id) := funext hfid
  rw [this]
  exact hid

theorem idsNodup_filter {db : List Task} (hid : TaskIdsNodup db) (p : Task → Bool) :
    ((db.filter p).map (fun t => t.id)).Nodup :=
  List.Nodup.sublist (List.Sublist.map _ (List.filter_sublist db)) hid

theorem countP_lt_strict_mono {m : List Task} {t1 t2 : Task}
    (h1 : t1 ∈ m) (h2 : t2 ∈ m) :
    t1.order < t2.order ↔
      m.countP (fun x => decide (x.order < t1.order)) <
        m.countP (fun x => decide (x.order < t2.order)) := by
  have key : ∀ a b : Task, a ∈ m → a.order < b.order →
      m.countP (fun x => decide (x.order < a.order)) <
        m.countP (fun x => decide (x.order < b.order)) := by
    intro a b ha hab
    rw [List.countP_eq_length_filter, List.countP_eq_length_filter]
    have hsplit := length_filter_split m (fun x => decide (x.order < b.order))
      (fun x => decide (x.order < a.order))
    have hcap : m.filter (fun x => decide (x.order < b.order) && decide (x.order < a.order)) =
        m.filter (fun x => decide (x.order < a.order)) := by
      apply List.filter_congr
      intro x _
      by_cases hx : x.order < a.order
      · simp [hx]; omega
      · simp [hx]
    have hmem : a ∈ m.filter (fun x =>
        decide (x.order < b.order) && !(decide (x.order < a.order))) := by
      refine List.mem_filter.2 ⟨ha, ?_⟩
      simp [hab]
    have hpos : 0 < (m.filter (fun x =>
        decide (x.order < b.order) && !(decide (x.order < a.order)))).length :=
      List.length_pos_of_mem hmem
    have hcap' := congrArg List.length hcap
    omega
  constructor
  · exact key t1 t2 h1
  · intro hlt
    rcases lt_trichotomy t1.order t2.order with h | h | h
    · exact h
    · rw [h] at hlt; exact absurd hlt (lt_irrefl _)
    · exact absurd (lt_trans hlt (key t2 t1 h2 h)) (lt_irrefl _)

theorem create_task_eq (db : List Task) (uid : Nat) (c : TaskCreate) (new_id : Nat) :
    create_task db uid c new_id =
      db.map (createShiftFn uid c.date) ++ [createdRow uid c new_id] := rfl

theorem delete_task_run_eq {db : List Task} {task_id user_id : Nat} {task : Task}
    (hfind : firstTask db task_id user_id = some task) :
    delete_task_run db task_id user_id =
      .ok (db.eraseP (fun t => t.id == task_id && t.user_id == user_id),
           (db.eraseP (fun t => t.id == task_id && t.user_id == user_id)).map
             (renumberFn (db.eraseP (fun t => t.id == task_id && t.user_id == user_id))
               user_id task.date)) := by
  unfold delete_task_run
  rw [hfind]
  rfl

theorem createShiftFn_id (uid : Nat) (d : Int) (t : Task) :
    (createShiftFn uid d t).id = t.id := by
  unfold createShiftFn; split_ifs <;> rfl

theorem createShiftFn_user_id (uid : Nat) (d : Int) (t : Task) :
    (createShiftFn uid d t).user_id = t.user_id := by
  unfold createShiftFn; split_ifs <;> rfl

theorem createShiftFn_date (uid : Nat) (d : Int) (t : Task) :
    (createShiftFn uid d t).date = t.date := by
  unfold createShiftFn; split_ifs <;> rfl

theorem regroupFn_id (db : List Task) (task : Task) (nd : Option Int) (t : Task) :
    (regroupFn db task nd t).id = t.id := by
  unfold regroupFn; split_ifs <;> rfl

theorem update_task_date_ok {db : List Task} {task : Task} {nd : Option Int}
    (hfind : firstTask db task.id task.user_id = some task) (hne : nd ≠ task.date) :
    update_task db task.id task.user_id (dateUpd nd) =
      .ok (db.map (regroupFn db task nd)) := by
  unfold update_task
  rw [hfind]
  rw [show taskMatchedGroups (dateUpd nd) = 1 from rfl]
  simp only [gt_iff_lt, Nat.lt_irrefl, if_false, dateUpd]
  rw [if_pos hne]
  rfl

theorem update_task_date_noop {db : List Task} {task : Task} {nd : Option Int}
    (hfind : firstTask db task.id task.user_id = some task) (heq : nd = task.date) :
    update_task db task.id task.user_id (dateUpd nd) = .ok db := by
  unfold update_task
  rw [hfind]
  rw [show taskMatchedGroups (dateUpd nd) = 1 from rfl]
  simp only [gt_iff_lt, Nat.lt_irrefl, if_false, dateUpd]
  rw [if_neg (by simpa using heq)]

/-- Front-insert keeps a dense rank multiset dense. -/
theorem denseRanks_front_insert {l : List Int} (hl : denseRanks l) :
    denseRanks (l.map (fun k => k + 1) ++ [1]) := by
  apply denseRanks_of_nodup_of_bounds
  · rw [List.nodup_append]
    refine ⟨(denseRanks_nodup hl).map (fun a b h => by omega), List.nodup_singleton _, ?_⟩
    intro x hx
    obtain ⟨k, hk, rfl⟩ := List.mem_map.1 hx
    have := denseRanks_bounds hl hk
    simp only [List.mem_singleton]
    omega
  · simp only [List.length_append, List.length_map, List.length_singleton]
    intro k hk
    rcases List.mem_append.1 hk with hk | hk
    · obtain ⟨j, hj, rfl⟩ := List.mem_map.1 hk
      have := denseRanks_bounds hl hj
      omega
    · rw [List.mem_singleton] at hk
      subst hk
      constructor <;> omega

/-- Removing the member with rank `o` and closing the gap keeps the rank
multiset dense. -/
theorem denseRanks_remove_shift {l l' : List Int} {o : Int} (hl : denseRanks l)
    (hperm : (o :: l').Perm l) :
    denseRanks (l'.map (fun k => if o < k then k - 1 else k)) := by
  have hnd : (o :: l').Nodup := (hperm.nodup_iff).2 (denseRanks_nodup hl)
  have hnotmem : o ∉ l' := (List.nodup_cons.1 hnd).1
  have hnd' : l'.Nodup := (List.nodup_cons.1 hnd).2
  have hlen : l'.length + 1 = l.length := by
    have := hperm.length_eq
    simpa using this
  have hob : 1 ≤ o ∧ o ≤ (l.length : Int) :=
    denseRanks_bounds hl (hperm.mem_iff.1 (List.mem_cons_self _ _))
  have hbound : ∀ k ∈ l', 1 ≤ k ∧ k ≤ (l.length : Int) ∧ k ≠ o := by
    intro k hk
    have hkl : k ∈ l := hperm.mem_iff.1 (List.mem_cons_of_mem _ hk)
    have := denseRanks_bounds hl hkl
    exact ⟨this.1, this.2, fun h => hnotmem (h ▸ hk)⟩
  apply denseRanks_of_nodup_of_bounds
  · refine List.Nodup.map_on ?_ hnd'
    intro x hx y hy hxy
    have hbx := hbound x hx
    have hby := hbound y hy
    by_cases h1 : o < x <;> by_cases h2 : o < y <;>
      simp only [h1, h2, if_pos, if_neg, if_true, if_false] at hxy <;> omega
  · simp only [List.length_map]
    intro k hk
    obtain ⟨x, hx, rfl⟩ := List.mem_map.1 hk
    have hbx := hbound x hx
    by_cases h1 : o < x <;> simp only [h1, if_true, if_false] <;> omega

theorem firstTask_some_spec {db : List Task} {tid uid : Nat} {task : Task}
    (h : firstTask db tid uid = some task) :
    task ∈ db ∧ task.id = tid ∧ task.user_id = uid := by
  unfold firstTask at h
  rcases hfil : db.filter (fun t => t.id == tid && t.user_id == uid) with _ | ⟨a, rest⟩
  · rw [hfil] at h
    exact absurd h (by simp)
  · rw [hfil] at h
    have ha : a = task := by simpa using h
    subst ha
    have hmem : a ∈ db.filter (fun t => t.id == tid && t.user_id == uid) := by
      rw [hfil]; exact List.mem_cons_self _ _
    obtain ⟨hdb, hp⟩ := List.mem_filter.1 hmem
    simp only [Bool.and_eq_true, beq_iff_eq] at hp
    exact ⟨hdb, hp.1, hp.2⟩

theorem firstBacklog_some_spec {db : List Backlog} {bid uid : Nat} {b : Backlog}
    (h : firstBacklog db bid uid = some b) :
    b ∈ db ∧ b.id = bid ∧ b.user_id = uid := by
  unfold firstBacklog at h
  rcases hfil : db.filter (fun x => x.id == bid && x.user_id == uid) with _ | ⟨a, rest⟩
  · rw [hfil] at h
    exact absurd h (by simp)
  · rw [hfil] at h
    have ha : a = b := by simpa using h
    subst ha
    have hmem : a ∈ db.filter (fun x => x.id == bid && x.user_id == uid) := by
      rw [hfil]; exact List.mem_cons_self _ _
    obtain ⟨hdb, hp⟩ := List.mem_filter.1 hmem
    simp only [Bool.and_eq_true, beq_iff_eq] at hp
    exact ⟨hdb, hp.1, hp.2⟩

/-- Erasing a row that no `q`-row matches commutes away from the filter. -/
theorem filter_eraseP_of_disj {α : Type} (l : List α) (p q : α → Bool)
    (h : ∀ t ∈ l, q t = true → p t = false) :
    (l.eraseP p).filter q = l.filter q := by
  induction l with
  | nil => rfl
  | cons a t ih =>
    by_cases hpa : p a = true
    · rw [List.eraseP_cons, hpa]
      simp only [cond_true]
      have hqa : q a = false := by
        by_cases hq : q a = true
        · exact absurd (h a (List.mem_cons_self _ _) hq) (by rw [hpa]; simp)
        · simpa using hq
      rw [List.filter_cons, if_neg (by simp [hqa])]
    · rw [List.eraseP_cons]
      have : p a = false := by simpa using hpa
      rw [this]
      simp only [cond_false]
      rw [List.filter_cons, List.filter_cons]
      have ih' := ih (fun x hx hq => h x (List.mem_cons_of_mem _ hx) hq)
      split_ifs <;> simp [ih']

/-- Erasing a row that every `p`-row would keep commutes with the filter. -/
theorem filter_eraseP_of_imp {α : Type} (l : List α) (p q : α → Bool)
    (h : ∀ t ∈ l, p t = true → q t = true) :
    (l.eraseP p).filter q = (l.filter q).eraseP p := by
  induction l with
  | nil => rfl
  | cons a t ih =>
    have ih' := ih (fun x hx hp => h x (List.mem_cons_of_mem _ hx) hp)
    by_cases hpa : p a = true
    · have hqa : q a = true := h a (List.mem_cons_self _ _) hpa
      rw [List.eraseP_cons, hpa]
      simp only [cond_true]
      rw [List.filter_cons, if_pos hqa, List.eraseP_cons, hpa]
      rfl
    · have hpa' : p a = false := by simpa using hpa
      rw [List.eraseP_cons, hpa']
      simp only [cond_false]
      rw [List.filter_cons, List.filter_cons]
      by_cases hqa : q a = true
      · rw [if_pos hqa, if_pos hqa, List.eraseP_cons, hpa']
        simp only [cond_false]
        rw [ih']
      · rw [if_neg hqa, if_neg hqa, ih']

/-- If a row map keeps user, date, and the ranks of a group's members, that
group's rank list is unchanged. -/
theorem taskRanks_map_invariant {db : List Task} {f : Task → Task}
    (hfu : ∀ t, (f t).user_id = t.user_id) (hfd : ∀ t, (f t).date = t.date)
    (uid : Nat) (d : Option Int)
    (hoff : ∀ t ∈ db, sameGroup uid d t = true → (f t).order = t.order) :
    taskRanks (db.map f) uid d = taskRanks db uid d := by
  rw [taskRanks_map_eq uid d hfu hfd]
  unfold taskRanks
  apply List.map_congr_left
  intro t ht
  exact hoff t (List.mem_filter.1 ht).1 (List.mem_filter.1 ht).2

/-- If a row map rewrites every rank of a group through the value function
`g`, the group's rank list is mapped through `g`. -/
theorem taskRanks_map_group {db : List Task} {f : Task → Task}
    (hfu : ∀ t, (f t).user_id = t.user_id) (hfd : ∀ t, (f t).date = t.date)
    (uid : Nat) (d : Option Int) (g : Int → Int)
    (hval : ∀ t ∈ db, sameGroup uid d t = true → (f t).order = g t.order) :
    taskRanks (db.map f) uid d = (taskRanks db uid d).map g := by
  rw [taskRanks_map_eq uid d hfu hfd]
  unfold taskRanks
  rw [List.map_map]
  apply List.map_congr_left
  intro t ht
  exact hval t (List.mem_filter.1 ht).1 (List.mem_filter.1 ht).2

/-- POST /tasks/ keeps every group dense. -/
theorem TasksDense_create (db : List Task) (uid : Nat) (c : TaskCreate) (new_id : Nat)
    (h : TasksDense db) : TasksDense (create_task db uid c new_id) := by
  rw [TasksDense_iff]
  rw [TasksDense_iff] at h
  intro uid' d'
  rw [create_task_eq]
  unfold taskRanks
  rw [List.filter_append, List.map_append]
  have hfu := createShiftFn_user_id uid c.date
  have hfd := createShiftFn_date uid c.date
  have hmain : (db.map (createShiftFn uid c.date)).filter (sameGroup uid' d') =
      (db.filter (sameGroup uid' d')).map (createShiftFn uid c.date) :=
    filter_sameGroup_map uid' d' hfu hfd
  by_cases hgroup : uid' = uid ∧ d' = some c.date
  · obtain ⟨rfl, rfl⟩ := hgroup
    have hnew : (List.filter (sameGroup uid' (some c.date)) [createdRow uid' c new_id]) =
        [createdRow uid' c new_id] := by
      rw [List.filter_cons, if_pos (by unfold sameGroup createdRow; simp)]
      rfl
    rw [hmain, hnew, List.map_map]
    have hshift : (db.filter (sameGroup uid' (some c.date))).map
        ((fun t => t.order) ∘ createShiftFn uid' c.date) =
        (db.filter (sameGroup uid' (some c.date))).map (fun t => t.order + 1) := by
      apply List.map_congr_left
      intro t ht
      show (createShiftFn uid' c.date t).order = t.order + 1
      unfold createShiftFn
      rw [if_pos (List.mem_filter.1 ht).2]
    rw [hshift]
    have := denseRanks_front_insert (h uid' (some c.date))
    unfold taskRanks at this
    have hmapmap : (db.filter (sameGroup uid' (some c.date))).map (fun t => t.order + 1) =
        ((db.filter (sameGroup uid' (some c.date))).map (fun t => t.order)).map
          (fun k => k + 1) := by
      rw [List.map_map]
      rfl
    rw [hmapmap]
    exact this
  · have hnew : (List.filter (sameGroup uid' d') [createdRow uid c new_id]) = [] := by
      rw [List.filter_cons]
      rw [if_neg ?_]
      · rfl
      · unfold sameGroup createdRow
        simp only [Bool.and_eq_true, beq_iff_eq]
        intro hc
        exact hgroup ⟨hc.1.symm ▸ rfl, hc.2.symm ▸ rfl⟩
    rw [hmain, hnew, List.map_nil, List.map_map, List.append_nil]
    have hoff : (db.filter (sameGroup uid' d')).map
        ((fun t => t.order) ∘ createShiftFn uid c.date) =
        (db.filter (sameGroup uid' d')).map (fun t => t.order) := by
      apply List.map_congr_left
      intro t ht
      show (createShiftFn uid c.date t).order = t.order
      unfold createShiftFn
      rw [if_neg ?_]
      intro hc
      have h1 := (List.mem_filter.1 ht).2
      unfold sameGroup at hc h1
      simp only [Bool.and_eq_true, beq_iff_eq] at hc h1
      exact hgroup ⟨h1.1 ▸ hc.1.symm ▸ rfl, h1.2 ▸ hc.2.symm ▸ rfl⟩
    rw [hoff]
    exact h uid' d'

/- ------------------------------------------------------------------ -/
/- Theorems                                                           -/
/- ------------------------------------------------------------------ -/

/-- C10: for every task-list request, the date-range filter is applied only
when both `start` and `end` are supplied; if one of them is missing the
listing returns every task of the caller regardless of date, ordered by rank. -/
theorem get_tasks_ignores_partial_range (db : List Task) (uid : Nat)
    (start end_ : Option Int) (h : start = none ∨ end_ = none) :
    (get_tasks db uid start end_).Perm (db.filter (fun t => t.user_id == uid)) ∧
    List.Sorted taskLE (get_tasks db uid start end_) := by
  have key : get_tasks db uid start end_ =
      sortByOrder (db.filter (fun t => t.user_id == uid)) := by
    rcases h with h | h
    · subst h; cases end_ <;> rfl
    · subst h; cases start <;> rfl
  rw [key]
  exact ⟨List.perm_insertionSort _ _, List.sorted_insertionSort _ _⟩

/-- C10 witness: with only `start` supplied, the listing for user 1 returns
both of the user's tasks (on dates 0 and 7), sorted by rank. -/
theorem get_tasks_ignores_partial_range_witness :
    ((some 3 : Option Int) = none ∨ (none : Option Int) = none) ∧
    ((get_tasks [sampleTask 1 1 0 2, sampleTask 2 1 7 1] 1 (some 3) none).Perm
        (([sampleTask 1 1 0 2, sampleTask 2 1 7 1]).filter (fun t => t.user_id == 1)) ∧
      List.Sorted taskLE (get_tasks [sampleTask 1 1 0 2, sampleTask 2 1 7 1] 1 (some 3) none)) :=
  ⟨Or.inr rfl,
    get_tasks_ignores_partial_range [sampleTask 1 1 0 2, sampleTask 2 1 7 1] 1
      (some 3) none (Or.inr rfl)⟩

/-- C3: an order update on an existing task or backlog whose requested rank is
null or below 1 fails with the "Order must be 1 or greater" bad-request error
and mutates nothing, while a requested rank above the group size N succeeds
silently, clamps to N, and the response row carries rank N. -/
theorem order_update_clamp_and_invalid :
    (∀ (db : List Task) (task : Task) (v : Option Int),
      TaskIdsNodup db → task ∈ db → (v = none ∨ ∃ n, v = some n ∧ n < 1) →
      update_task db task.id task.user_id (orderUpd v) =
        .error (.badRequest "Order must be 1 or greater")) ∧
    (∀ (db : List Task) (task : Task) (n : Int),
      TaskIdsNodup db → task ∈ db →
      (((db.filter (sameGroup task.user_id task.date)).length : Int) < n →
        update_task db task.id task.user_id (orderUpd (some n)) =
          .ok (db.map (moveFn db task n)) ∧
        orderById (db.map (moveFn db task n)) task.id =
          some ((db.filter (sameGroup task.user_id task.date)).length : Int))) ∧
    (∀ (db : List Backlog) (b : Backlog) (v : Option Int) (today : Int),
      BacklogIdsNodup db → b ∈ db → (v = none ∨ ∃ n, v = some n ∧ n < 1) →
      update_backlog db b.id b.user_id (orderUpdB v) today =
        .error (.badRequest "Order must be 1 or greater")) ∧
    (∀ (db : List Backlog) (b : Backlog) (n : Int) (today : Int),
      BacklogIdsNodup db → b ∈ db →
      (((db.filter (sameOwner b.user_id)).length : Int) < n →
        update_backlog db b.id b.user_id (orderUpdB (some n)) today =
          .ok (db.map (moveFnB db b n)) ∧
        backlogOrderById (db.map (moveFnB db b n)) b.id =
          some ((db.filter (sameOwner b.user_id)).length : Int))) := by
  refine ⟨?_, ?_, ?_, ?_⟩
  · intro db task v hid hmem hv
    exact update_task_order_invalid (firstTask_eq hid hmem) hv
  · intro db task n hid hmem hlt
    have hsg : sameGroup task.user_id task.date task = true := by
      unfold sameGroup; simp
    have hNpos : 0 < (db.filter (sameGroup task.user_id task.date)).length :=
      List.length_pos_of_mem (List.mem_filter.2 ⟨hmem, hsg⟩)
    have hcount : (db.filter (fun t =>
          sameGroup task.user_id task.date t && t.id != task.id)).length + 1 =
        (db.filter (sameGroup task.user_id task.date)).length :=
      length_filter_and_ne db (fun t => t.id) task
        (sameGroup task.user_id task.date) hid hmem hsg
    have h1n : 1 ≤ n := by omega
    refine ⟨update_task_order_ok (firstTask_eq hid hmem) h1n, ?_⟩
    unfold orderById
    rw [rowById_map (moveFn_id db task n), rowById_eq hid hmem]
    show some ((moveFn db task n task).order) = _
    have : (moveFn db task n task).order =
        ((db.filter (sameGroup task.user_id task.date)).length : Int) := by
      unfold moveFn
      rw [if_pos (beq_self_eq_true _)]
      dsimp only
      split_ifs with h
      · omega
      · omega
    rw [this]
  · intro db b v today hid hmem hv
    exact update_backlog_order_invalid (firstBacklog_eq hid hmem) hv
  · intro db b n today hid hmem hlt
    have hsg : sameOwner b.user_id b = true := by
      unfold sameOwner; simp
    have hNpos : 0 < (db.filter (sameOwner b.user_id)).length :=
      List.length_pos_of_mem (List.mem_filter.2 ⟨hmem, hsg⟩)
    have hcount : (db.filter (fun x =>
          sameOwner b.user_id x && x.id != b.id)).length + 1 =
        (db.filter (sameOwner b.user_id)).length :=
      length_filter_and_ne db (fun x => x.id) b
        (sameOwner b.user_id) hid hmem hsg
    have h1n : 1 ≤ n := by omega
    refine ⟨update_backlog_order_ok (firstBacklog_eq hid hmem) h1n, ?_⟩
    unfold backlogOrderById
    rw [backlogById_map (moveFnB_id db b n), backlogById_eq hid hmem]
    show some ((moveFnB db b n b).order) = _
    have : (moveFnB db b n b).order = ((db.filter (sameOwner b.user_id)).length : Int) := by
      unfold moveFnB
      rw [if_pos (beq_self_eq_true _)]
      dsimp only
      split_ifs with h
      · omega
      · omega
    rw [this]

/-- C3 witness: on a dense three-member group, requesting rank 0 (task) or a
null rank (backlog) errors, and requesting rank 99 (task) or 9 (backlog)
clamps to rank 3. -/
theorem order_update_clamp_and_invalid_witness :
    (update_task dbW 1 1 (orderUpd (some 0)) =
      .error (.badRequest "Order must be 1 or greater")) ∧
    (update_task dbW 1 1 (orderUpd (some 99)) =
        .ok (dbW.map (moveFn dbW (sampleTask 1 1 0 1) 99)) ∧
      orderById (dbW.map (moveFn dbW (sampleTask 1 1 0 1) 99)) 1 = some 3) ∧
    (update_backlog dbWB 1 1 (orderUpdB none) 5 =
      .error (.badRequest "Order must be 1 or greater")) ∧
    (update_backlog dbWB 1 1 (orderUpdB (some 9)) 5 =
        .ok (dbWB.map (moveFnB dbWB (sampleBacklog 1 1 0 1) 9)) ∧
      backlogOrderById (dbWB.map (moveFnB dbWB (sampleBacklog 1 1 0 1) 9)) 1 = some 3) :=
  ⟨order_update_clamp_and_invalid.1 dbW (sampleTask 1 1 0 1) (some 0)
      (by decide) (by decide) (Or.inr ⟨0, rfl, by decide⟩),
    order_update_clamp_and_invalid.2.1 dbW (sampleTask 1 1 0 1) 99
      (by decide) (by decide) (by decide),
    order_update_clamp_and_invalid.2.2.1 dbWB (sampleBacklog 1 1 0 1) none 5
      (by decide) (by decide) (Or.inl rfl),
    order_update_clamp_and_invalid.2.2.2 dbWB (sampleBacklog 1 1 0 1) 9 5
      (by decide) (by decide) (by decide)⟩

/-- C5: marking a task of a dense-ranked group completed moves it to the last
rank N (members ranked after it shift down by one, members before it are
unchanged) and marking it incomplete moves it to rank 1 (every other member
shifts up by one), in both cases setting the completed flag as requested. -/
theorem completion_toggle_moves_to_boundary
    (db : List Task) (task : Task) (b : Bool)
    (hid : TaskIdsNodup db) (hmem : task ∈ db)
    (hdense : denseRanks (taskRanks db task.user_id task.date)) :
    ∃ db2, update_task db task.id task.user_id (completedUpd (some b)) = .ok db2 ∧
      rowById db2 task.id =
        some { task with
               is_completed := some b,
               order := if b
                 then ((db.filter (sameGroup task.user_id task.date)).length : Int)
                 else 1 } ∧
      ∀ t ∈ db, t.id ≠ task.id → sameGroup task.user_id task.date t = true →
        orderById db2 t.id = some (if b
          then (if task.order < t.order then t.order - 1 else t.order)
          else t.order + 1) := by
  have hsg : sameGroup task.user_id task.date task = true := by
    unfold sameGroup; simp
  have hcount : (db.filter (fun t =>
        sameGroup task.user_id task.date t && t.id != task.id)).length + 1 =
      (db.filter (sameGroup task.user_id task.date)).length :=
    length_filter_and_ne db (fun t => t.id) task
      (sameGroup task.user_id task.date) hid hmem hsg
  cases b with
  | true =>
    refine ⟨db.map (completeTrueFn db task (some true)),
      update_task_completed_true (firstTask_eq hid hmem) rfl, ?_, ?_⟩
    · rw [rowById_map (completeTrueFn_id db task (some true)), rowById_eq hid hmem]
      show some (completeTrueFn db task (some true) task) = _
      unfold completeTrueFn
      rw [if_pos (beq_self_eq_true _)]
      have : ((db.filter (fun t =>
            sameGroup task.user_id task.date t && t.id != task.id)).length : Int) + 1 =
          ((db.filter (sameGroup task.user_id task.date)).length : Int) := by
        omega
      rw [this, if_pos rfl]
    · intro t ht hne hgrp
      unfold orderById
      rw [rowById_map (completeTrueFn_id db task (some true)), rowById_eq hid ht]
      show some ((completeTrueFn db task (some true) t).order) = _
      unfold completeTrueFn
      rw [if_neg (by simpa using hne)]
      by_cases hlt : task.order < t.order
      · rw [if_pos (by simp [hgrp]; omega), if_pos rfl, if_pos hlt]
      · rw [if_neg (by simp [hgrp]; omega), if_pos rfl, if_neg hlt]
  | false =>
    refine ⟨db.map (completeFalseFn task (some false)),
      update_task_completed_false (firstTask_eq hid hmem) rfl, ?_, ?_⟩
    · rw [rowById_map (completeFalseFn_id task (some false)), rowById_eq hid hmem]
      show some (completeFalseFn task (some false) task) = _
      unfold completeFalseFn
      rw [if_pos (beq_self_eq_true _)]
      rfl
    · intro t ht hne hgrp
      unfold orderById
      rw [rowById_map (completeFalseFn_id task (some false)), rowById_eq hid ht]
      show some ((completeFalseFn task (some false) t).order) = _
      unfold completeFalseFn
      rw [if_neg (by simpa using hne), if_pos hgrp]
      rfl

/-- C5 witness: marking the rank-2 task of a dense three-member group
completed moves it to rank 3 and shifts the rank-3 member down. -/
theorem completion_toggle_moves_to_boundary_witness :
    ∃ db2, update_task dbW 2 1 (completedUpd (some true)) = .ok db2 ∧
      rowById db2 2 =
        some { sampleTask 2 1 0 2 with
               is_completed := some true,
               order := if true
                 then ((dbW.filter (sameGroup 1 (some 0))).length : Int)
                 else 1 } ∧
      ∀ t ∈ dbW, t.id ≠ 2 → sameGroup 1 (some 0) t = true →
        orderById db2 t.id = some (if true
          then (if (2 : Int) < t.order then t.order - 1 else t.order)
          else t.order + 1) :=
  completion_toggle_moves_to_boundary dbW (sampleTask 2 1 0 2) true
    (by decide) (by decide) (by decide)

/-- C2: for a dense group and a clamped requested rank r in [1..N], the
single-pass directional shift of the order-update branch gives the moved task
rank r and every other member the rank it would occupy after a stable removal
of the task from the rank-sorted list followed by reinsertion at position r;
when r equals the current rank the whole store is unchanged. -/
theorem move_matches_reinsertion
    (db : List Task) (task : Task) (r : Int)
    (hid : TaskIdsNodup db) (hmem : task ∈ db)
    (hdense : denseRanks (taskRanks db task.user_id task.date))
    (hr1 : 1 ≤ r)
    (hrN : r ≤ ((db.filter (sameGroup task.user_id task.date)).length : Int)) :
    update_task db task.id task.user_id (orderUpd (some r)) =
      .ok (db.map (moveFn db task r)) ∧
    orderById (db.map (moveFn db task r)) task.id = some r ∧
    (∀ t ∈ db, t.id ≠ task.id → sameGroup task.user_id task.date t = true →
      orderById (db.map (moveFn db task r)) t.id =
        some (removeReinsertRank task.order r t.order)) ∧
    (r = task.order → db.map (moveFn db task r) = db) := by
  have hsg : sameGroup task.user_id task.date task = true := by
    unfold sameGroup; simp
  have hcount : (db.filter (fun t =>
        sameGroup task.user_id task.date t && t.id != task.id)).length + 1 =
      (db.filter (sameGroup task.user_id task.date)).length :=
    length_filter_and_ne db (fun t => t.id) task
      (sameGroup task.user_id task.date) hid hmem hsg
  have hnoclamp : (if r > ((db.filter (fun t =>
        sameGroup task.user_id task.date t && t.id != task.id)).length : Int) + 1
      then ((db.filter (fun t =>
        sameGroup task.user_id task.date t && t.id != task.id)).length : Int) + 1
      else r) = r := by
    split_ifs with h
    · omega
    · rfl
  refine ⟨update_task_order_ok (firstTask_eq hid hmem) hr1, ?_, ?_, ?_⟩
  · unfold orderById
    rw [rowById_map (moveFn_id db task r), rowById_eq hid hmem]
    show some ((moveFn db task r task).order) = _
    unfold moveFn
    rw [if_pos (beq_self_eq_true _)]
    dsimp only
    rw [hnoclamp]
  · intro t ht hne hgrp
    have htne : t.order ≠ task.order := by
      intro h
      exact hne (congrArg Task.id (List.inj_on_of_nodup_map (denseRanks_nodup hdense)
        (List.mem_filter.2 ⟨ht, hgrp⟩) (List.mem_filter.2 ⟨hmem, hsg⟩) h))
    unfold orderById
    rw [rowById_map (moveFn_id db task r), rowById_eq hid ht]
    show some ((moveFn db task r t).order) = _
    unfold moveFn
    rw [if_neg (by simpa using hne), if_pos hgrp]
    dsimp only
    rw [hnoclamp, shiftRank_eq_removeReinsert htne]
  · intro hr
    rw [show db.map (moveFn db task r) = db.map (fun t => t) from ?_, List.map_id']
    apply List.map_congr_left
    intro t ht
    unfold moveFn
    by_cases h1 : t.id == task.id
    · rw [if_pos h1]
      have : t = task := task_eq_of_id_eq hid ht hmem (by simpa using h1)
      subst this
      rw [hnoclamp, hr]
    · rw [if_neg h1]
      by_cases h2 : sameGroup task.user_id task.date t
      · rw [if_pos h2, hnoclamp, hr, shiftRank_self]
      · rw [if_neg h2]

/-- C2 witness: moving the rank-3 task of a dense three-member group to
rank 1. -/
theorem move_matches_reinsertion_witness :
    update_task dbW 3 1 (orderUpd (some 1)) =
      .ok (dbW.map (moveFn dbW (sampleTask 3 1 0 3) 1)) ∧
    orderById (dbW.map (moveFn dbW (sampleTask 3 1 0 3) 1)) 3 = some 1 ∧
    (∀ t ∈ dbW, t.id ≠ 3 → sameGroup 1 (some 0) t = true →
      orderById (dbW.map (moveFn dbW (sampleTask 3 1 0 3) 1)) t.id =
        some (removeReinsertRank 3 1 t.order)) ∧
    ((1 : Int) = 3 → dbW.map (moveFn dbW (sampleTask 3 1 0 3) 1) = dbW) :=
  move_matches_reinsertion dbW (sampleTask 3 1 0 3) 1
    (by decide) (by decide) (by decide) (by decide) (by decide)

/-- C7: creating a task (front-insert at rank 1, existing members of the
(user, date) group shift up by one) and then deleting that same task restores
exactly the pre-create store, including every original member's rank. -/
theorem create_delete_round_trip
    (db : List Task) (uid : Nat) (c : TaskCreate) (new_id : Nat)
    (hid : TaskIdsNodup db)
    (hdense : denseRanks (taskRanks db uid (some c.date)))
    (hfresh : ∀ t ∈ db, t.id ≠ new_id) :
    delete_task (create_task db uid c new_id) new_id uid = .ok db := by
  have hfid := createShiftFn_id uid c.date
  have hfu := createShiftFn_user_id uid c.date
  have hfd := createShiftFn_date uid c.date
  have hpredF : ∀ a ∈ db.map (createShiftFn uid c.date),
      ¬ ((a.id == new_id && a.user_id == uid) = true) := by
    intro a ha
    obtain ⟨t, ht, rfl⟩ := List.mem_map.1 ha
    rw [hfid t, beq_eq_false_iff_ne.2 (hfresh t ht), Bool.false_and]
    exact Bool.false_ne_true
  have hnewP : ((createdRow uid c new_id).id == new_id &&
      (createdRow uid c new_id).user_id == uid) = true := by
    unfold createdRow
    simp
  have hfind : firstTask (db.map (createShiftFn uid c.date) ++ [createdRow uid c new_id])
      new_id uid = some (createdRow uid c new_id) := by
    unfold firstTask
    rw [List.filter_append, List.filter_eq_nil_iff.2 hpredF, List.nil_append,
      List.filter_cons, if_pos hnewP]
    rfl
  have herase : (db.map (createShiftFn uid c.date) ++ [createdRow uid c new_id]).eraseP
      (fun t => t.id == new_id && t.user_id == uid) = db.map (createShiftFn uid c.date) := by
    rw [List.eraseP_append_right _ hpredF]
    simp only [List.eraseP_cons, hnewP, cond_true, List.append_nil]
  unfold delete_task
  rw [create_task_eq, delete_task_run_eq hfind, herase]
  have hdate : (createdRow uid c new_id).date = some c.date := rfl
  rw [hdate]
  show Except.ok ((db.map (createShiftFn uid c.date)).map
    (renumberFn (db.map (createShiftFn uid c.date)) uid (some c.date))) = Except.ok db
  congr 1
  -- the renumbered store equals the original store
  rw [List.map_map]
  have hmembers : (db.map (createShiftFn uid c.date)).filter (sameGroup uid (some c.date)) =
      (db.filter (sameGroup uid (some c.date))).map (createShiftFn uid c.date) :=
    filter_sameGroup_map uid (some c.date) hfu hfd
  have hmIds : (((db.map (createShiftFn uid c.date)).filter
      (sameGroup uid (some c.date))).map (fun x => x.id)).Nodup := by
    rw [hmembers, List.map_map]
    have : ((fun (x : Task) => x.id) ∘ createShiftFn uid c.date) = (fun (x : Task) => x.id) :=
      funext hfid
    rw [this]
    exact idsNodup_filter hid _
  have hmOrdEq : ((db.map (createShiftFn uid c.date)).filter
        (sameGroup uid (some c.date))).map (fun x => x.order) =
      ((db.filter (sameGroup uid (some c.date))).map (fun x => x.order)).map
        (fun k => k + 1) := by
    rw [hmembers, List.map_map, List.map_map]
    apply List.map_congr_left
    intro a ha
    show (createShiftFn uid c.date a).order = a.order + 1
    unfold createShiftFn
    rw [if_pos (List.mem_filter.1 ha).2]
  have hmOrds : (((db.map (createShiftFn uid c.date)).filter
      (sameGroup uid (some c.date))).map (fun x => x.order)).Nodup := by
    rw [hmOrdEq]
    exact (denseRanks_nodup hdense).map (fun a b h => by omega)
  have hpoint : ∀ t ∈ db, (renumberFn (db.map (createShiftFn uid c.date)) uid (some c.date) ∘
      createShiftFn uid c.date) t = t := by
    intro t ht
    by_cases hsg : sameGroup uid (some c.date) t = true
    · have hft : createShiftFn uid c.date t = { t with order := t.order + 1 } := by
        unfold createShiftFn
        rw [if_pos hsg]
      have hsg' : sameGroup uid (some c.date) (createShiftFn uid c.date t) = true := by
        unfold sameGroup at hsg ⊢
        rw [hfu, hfd]
        exact hsg
      have hmemM : createShiftFn uid c.date t ∈
          (db.map (createShiftFn uid c.date)).filter (sameGroup uid (some c.date)) :=
        List.mem_filter.2 ⟨List.mem_map_of_mem _ ht, hsg'⟩
      have hidx := findIdx_sortByOrder_eq_countP hmIds hmOrds hmemM
      have hordmem : t.order ∈ taskRanks db uid (some c.date) :=
        List.mem_map_of_mem _ (List.mem_filter.2 ⟨ht, hsg⟩)
      have hbounds := denseRanks_bounds hdense hordmem
      have hcount : ((db.map (createShiftFn uid c.date)).filter
          (sameGroup uid (some c.date))).countP
            (fun x => decide (x.order < (createShiftFn uid c.date t).order)) =
          (t.order - 1).toNat := by
        have e1 : ((db.map (createShiftFn uid c.date)).filter
            (sameGroup uid (some c.date))).countP
              (fun x => decide (x.order < (createShiftFn uid c.date t).order)) =
            (((db.map (createShiftFn uid c.date)).filter
              (sameGroup uid (some c.date))).map (fun (x : Task) => x.order)).countP
                (fun k => decide (k < (createShiftFn uid c.date t).order)) :=
          (List.countP_map (fun k => decide (k < (createShiftFn uid c.date t).order))
            (fun (x : Task) => x.order) _).symm
        rw [e1, hmOrdEq, List.countP_map]
        have e2 : ((fun k => decide (k < (createShiftFn uid c.date t).order)) ∘
            (fun (k : Int) => k + 1)) = (fun k => decide (k < t.order)) := by
          funext k
          rw [hft]
          show decide (k + 1 < t.order + 1) = decide (k < t.order)
          rw [decide_eq_decide]
          omega
        rw [e2]
        have hdense' : (List.map (fun (x : Task) => x.order)
            (db.filter (sameGroup uid (some c.date)))).Perm
            (rangeRanks (List.map (fun (x : Task) => x.order)
              (db.filter (sameGroup uid (some c.date)))).length) := hdense
        rw [List.Perm.countP_eq _ hdense']
        exact countP_lt_rangeRanks hbounds.1 hbounds.2
      show renumberFn (db.map (createShiftFn uid c.date)) uid (some c.date)
        (createShiftFn uid c.date t) = t
      unfold renumberFn
      rw [if_pos hsg', hidx, hcount, hft]
      show { t with order := ((((t.order - 1).toNat : Nat) : Int) + 1) } = t
      have : (((t.order - 1).toNat : Nat) : Int) + 1 = t.order := by omega
      rw [this]
    · have hft : createShiftFn uid c.date t = t := by
        unfold createShiftFn
        rw [if_neg hsg]
      show renumberFn (db.map (createShiftFn uid c.date)) uid (some c.date)
        (createShiftFn uid c.date t) = t
      rw [hft]
      unfold renumberFn
      rw [if_neg hsg]
  rw [List.map_congr_left hpoint, List.map_id']

/-- C7 witness: creating a fourth task on the dense three-member group of
`dbW` and deleting it returns the store to `dbW` exactly. -/
theorem create_delete_round_trip_witness :
    delete_task (create_task dbW 1 (namedCreate "E") 99) 99 1 = .ok dbW :=
  create_delete_round_trip dbW 1 (namedCreate "E") 99 (by decide) (by decide) (by decide)

/-- After a date change, the renumbered old (user, date) group is dense. -/
theorem regroup_old_dense {db : List Task} {task : Task} {nd : Option Int}
    (hid : TaskIdsNodup db) (hmem : task ∈ db) (hne : nd ≠ task.date) :
    denseRanks (taskRanks (db.map (regroupFn db task nd)) task.user_id task.date) := by
  have hfu : ∀ t, (regroupFn db task nd t).user_id = t.user_id := by
    intro t; unfold regroupFn; split_ifs <;> rfl
  have hidm : ((db.filter (fun x =>
      sameGroup task.user_id task.date x && x.id != task.id)).map (fun x => x.id)).Nodup :=
    idsNodup_filter hid _
  have hFval : ∀ t ∈ db, t.id ≠ task.id → sameGroup task.user_id task.date t = true →
      (regroupFn db task nd t) = { t with order :=
        (((sortByOrder (db.filter (fun x =>
          sameGroup task.user_id task.date x && x.id != task.id))).findIdx
            (fun m => m.id == t.id) : Nat) : Int) + 1 } := by
    intro t ht hne_id hgrp
    unfold regroupFn
    rw [if_neg (by simpa using hne_id), if_pos hgrp]
  unfold taskRanks
  have hfilter : (db.map (regroupFn db task nd)).filter (sameGroup task.user_id task.date) =
      (db.filter (fun x => sameGroup task.user_id task.date x && x.id != task.id)).map
        (regroupFn db task nd) := by
    rw [filter_of_map]
    congr 1
    apply List.filter_congr
    intro y hy
    by_cases hyid : (y.id == task.id) = true
    · have hy_eq : y = task := task_eq_of_id_eq hid hy hmem (by simpa using hyid)
      have hFy : regroupFn db task nd y = { y with date := nd, order := 1 } := by
        unfold regroupFn
        rw [if_pos hyid]
      rw [hFy]
      unfold sameGroup
      have h1 : ((({ y with date := nd, order := 1 } : Task).date == task.date)) = false :=
        beq_eq_false_iff_ne.2 hne
      have h2 : (y.id != task.id) = false := by
        rw [hy_eq]
        simp
      rw [h1, h2, Bool.and_false, Bool.and_false]
    · have hd : (regroupFn db task nd y).date = y.date := by
        unfold regroupFn
        rw [if_neg hyid]
        split_ifs <;> rfl
      unfold sameGroup
      rw [hfu y, hd, show (y.id != task.id) = true from by simpa using hyid, Bool.and_true]
  rw [hfilter, List.map_map]
  have hren : (db.filter (fun x =>
      sameGroup task.user_id task.date x && x.id != task.id)).map
        ((fun t => t.order) ∘ regroupFn db task nd) =
      (db.filter (fun x => sameGroup task.user_id task.date x && x.id != task.id)).map
        (fun t => (((sortByOrder (db.filter (fun x =>
          sameGroup task.user_id task.date x && x.id != task.id))).findIdx
            (fun m => m.id == t.id) : Nat) : Int) + 1) := by
    apply List.map_congr_left
    intro t htm
    obtain ⟨ht, hpred⟩ := List.mem_filter.1 htm
    rw [Bool.and_eq_true] at hpred
    obtain ⟨hgrp, hne_id⟩ := hpred
    show (regroupFn db task nd t).order = _
    rw [hFval t ht (by simpa using hne_id) hgrp]
  rw [hren]
  exact denseRanks_renumber hidm

/-- C8: a task update whose date differs from the current one removes the
task from its old (user, date) group — whose remaining members compact to
dense ranks preserving their relative order — and inserts it at rank 1 of the
new group, shifting each existing member of the new group up by one; a date
equal to the current one changes no rank. -/
theorem date_change_regroups
    (db : List Task) (task : Task) (nd : Option Int)
    (hid : TaskIdsNodup db) (hmem : task ∈ db)
    (hdense : denseRanks (taskRanks db task.user_id task.date)) :
    (nd = task.date → update_task db task.id task.user_id (dateUpd nd) = .ok db) ∧
    (nd ≠ task.date →
      update_task db task.id task.user_id (dateUpd nd) =
        .ok (db.map (regroupFn db task nd)) ∧
      rowById (db.map (regroupFn db task nd)) task.id =
        some { task with date := nd, order := 1 } ∧
      (∀ t ∈ db, t.id ≠ task.id → sameGroup task.user_id nd t = true →
        orderById (db.map (regroupFn db task nd)) t.id = some (t.order + 1)) ∧
      denseRanks (taskRanks (db.map (regroupFn db task nd)) task.user_id task.date) ∧
      (∀ t1 ∈ db, ∀ t2 ∈ db, t1.id ≠ task.id → t2.id ≠ task.id →
        sameGroup task.user_id task.date t1 = true →
        sameGroup task.user_id task.date t2 = true →
        (t1.order < t2.order ↔
          (regroupFn db task nd t1).order < (regroupFn db task nd t2).order))) := by
  refine ⟨fun heq => update_task_date_noop (firstTask_eq hid hmem) heq, fun hne => ?_⟩
  have hfu : ∀ t, (regroupFn db task nd t).user_id = t.user_id := by
    intro t; unfold regroupFn; split_ifs <;> rfl
  have hidm : ((db.filter (fun x =>
      sameGroup task.user_id task.date x && x.id != task.id)).map (fun x => x.id)).Nodup :=
    idsNodup_filter hid _
  have hsplitm : db.filter (fun x =>
      sameGroup task.user_id task.date x && x.id != task.id) =
      (db.filter (sameGroup task.user_id task.date)).filter (fun x => x.id != task.id) := by
    rw [List.filter_filter]
    apply List.filter_congr
    intro x _
    exact Bool.and_comm _ _
  have hordm : ((db.filter (fun x =>
      sameGroup task.user_id task.date x && x.id != task.id)).map (fun x => x.order)).Nodup := by
    rw [hsplitm]
    exact List.Nodup.sublist (List.Sublist.map _ (List.filter_sublist _)) (denseRanks_nodup hdense)
  have hmemM : ∀ t ∈ db, t.id ≠ task.id → sameGroup task.user_id task.date t = true →
      t ∈ db.filter (fun x => sameGroup task.user_id task.date x && x.id != task.id) := by
    intro t ht hne_id hgrp
    refine List.mem_filter.2 ⟨ht, ?_⟩
    rw [hgrp, Bool.true_and]
    simpa using hne_id
  have hFval : ∀ t ∈ db, t.id ≠ task.id → sameGroup task.user_id task.date t = true →
      (regroupFn db task nd t) = { t with order :=
        (((sortByOrder (db.filter (fun x =>
          sameGroup task.user_id task.date x && x.id != task.id))).findIdx
            (fun m => m.id == t.id) : Nat) : Int) + 1 } := by
    intro t ht hne_id hgrp
    unfold regroupFn
    rw [if_neg (by simpa using hne_id), if_pos hgrp]
  have hFcount : ∀ t ∈ db, t.id ≠ task.id → sameGroup task.user_id task.date t = true →
      (regroupFn db task nd t).order =
        (((db.filter (fun x => sameGroup task.user_id task.date x && x.id != task.id)).countP
          (fun x => decide (x.order < t.order)) : Nat) : Int) + 1 := by
    intro t ht hne_id hgrp
    rw [hFval t ht hne_id hgrp]
    show (((sortByOrder _).findIdx _ : Nat) : Int) + 1 = _
    rw [findIdx_sortByOrder_eq_countP hidm hordm (hmemM t ht hne_id hgrp)]
  refine ⟨update_task_date_ok (firstTask_eq hid hmem) hne, ?_, ?_, ?_, ?_⟩
  · rw [rowById_map (regroupFn_id db task nd), rowById_eq hid hmem]
    show some (regroupFn db task nd task) = _
    unfold regroupFn
    rw [if_pos (beq_self_eq_true _)]
  · intro t ht hne_id hgrp
    unfold orderById
    rw [rowById_map (regroupFn_id db task nd), rowById_eq hid ht]
    show some ((regroupFn db task nd t).order) = _
    unfold regroupFn
    rw [if_neg (by simpa using hne_id)]
    have hdate_t : t.date = nd := by
      unfold sameGroup at hgrp
      simp only [Bool.and_eq_true, beq_iff_eq] at hgrp
      exact hgrp.2
    have hold : ¬ (sameGroup task.user_id task.date t = true) := by
      unfold sameGroup
      rw [beq_eq_false_iff_ne.2 (show t.date ≠ task.date by rw [hdate_t]; exact hne),
        Bool.and_false]
      exact Bool.false_ne_true
    rw [if_neg hold, if_pos hgrp]
  · exact regroup_old_dense hid hmem hne
  · intro t1 h1 t2 h2 hne1 hne2 hg1 hg2
    have hm1 := hmemM t1 h1 hne1 hg1
    have hm2 := hmemM t2 h2 hne2 hg2
    rw [hFcount t1 h1 hne1 hg1, hFcount t2 h2 hne2 hg2,
      countP_lt_strict_mono hm1 hm2]
    constructor <;> intro h <;> omega

/-- C8 witness: moving the rank-1 task of the dense three-member group of
`dbW` from date 0 to date 7. -/
theorem date_change_regroups_witness :
    ((some 7 : Option Int) = (sampleTask 1 1 0 1).date →
      update_task dbW 1 1 (dateUpd (some 7)) = .ok dbW) ∧
    ((some 7 : Option Int) ≠ (sampleTask 1 1 0 1).date →
      update_task dbW 1 1 (dateUpd (some 7)) =
        .ok (dbW.map (regroupFn dbW (sampleTask 1 1 0 1) (some 7))) ∧
      rowById (dbW.map (regroupFn dbW (sampleTask 1 1 0 1) (some 7))) 1 =
        some { sampleTask 1 1 0 1 with date := some 7, order := 1 } ∧
      (∀ t ∈ dbW, t.id ≠ 1 → sameGroup 1 (some 7) t = true →
        orderById (dbW.map (regroupFn dbW (sampleTask 1 1 0 1) (some 7))) t.id =
          some (t.order + 1)) ∧
      denseRanks (taskRanks (dbW.map (regroupFn dbW (sampleTask 1 1 0 1) (some 7))) 1 (some 0)) ∧
      (∀ t1 ∈ dbW, ∀ t2 ∈ dbW, t1.id ≠ 1 → t2.id ≠ 1 →
        sameGroup 1 (some 0) t1 = true → sameGroup 1 (some 0) t2 = true →
        (t1.order < t2.order ↔
          (regroupFn dbW (sampleTask 1 1 0 1) (some 7) t1).order <
            (regroupFn dbW (sampleTask 1 1 0 1) (some 7) t2).order))) :=
  date_change_regroups dbW (sampleTask 1 1 0 1) (some 7) (by decide) (by decide) (by decide)

/-- C4: a task update hitting more than one of the four field groups, and a
backlog update hitting both of its two groups, fail with the
"Only one type of update is allowed per request" bad-request error, with no
field mutated (the route raises before touching any row, so no new store is
produced). -/
theorem conflicting_update_rejected :
    (∀ (db : List Task) (tid uid : Nat) (u : TaskUpdate) (task : Task),
      firstTask db tid uid = some task → 1 < taskMatchedGroups u →
      update_task db tid uid u = .error (.badRequest
        "Only one type of update is allowed per request (order, title/note, or is_completed).")) ∧
    (∀ (db : List Backlog) (bid uid : Nat) (u : BacklogUpdate) (b : Backlog) (today : Int),
      firstBacklog db bid uid = some b → 1 < backlogMatchedGroups u →
      update_backlog db bid uid u today = .error (.badRequest
        "Only one type of update is allowed per request (order or detail).")) := by
  constructor
  · intro db tid uid u task hfind hgt
    unfold update_task
    rw [hfind]
    simp only [gt_iff_lt, if_pos hgt]
  · intro db bid uid u b today hfind hgt
    unfold update_backlog
    rw [hfind]
    simp only [gt_iff_lt, if_pos hgt]

/-- C4 witness: a task update carrying both `order` and `title`, and a backlog
update carrying both `order` and `detail`, are rejected on concrete stores. -/
theorem conflicting_update_rejected_witness :
    update_task dbW 1 1
      { date := none, title := some (some "x"), note := none,
        is_completed := none, order := some (some 2) } =
      .error (.badRequest
        "Only one type of update is allowed per request (order, title/note, or is_completed).") ∧
    update_backlog dbWB 1 1 { detail := some (some "x"), order := some (some 2) } 0 =
      .error (.badRequest "Only one type of update is allowed per request (order or detail).") :=
  ⟨conflicting_update_rejected.1 dbW 1 1
      { date := none, title := some (some "x"), note := none,
        is_completed := none, order := some (some 2) }
      (sampleTask 1 1 0 1) (by decide) (by decide),
    conflicting_update_rejected.2 dbWB 1 1
      { detail := some (some "x"), order := some (some 2) }
      (sampleBacklog 1 1 0 1) 0 (by decide) (by decide)⟩

/-- C9 (code bug): the delete routes commit twice — the deletion first, the
renumbering second — so a state in which the group is deleted but not yet
compacted is persisted.  Concretely: deleting task 1 (rank 1 of a dense
two-member group) first commits a store whose only group member has rank 2,
violating density; the same happens for backlogs. -/
theorem delete_persists_partial_rank_state :
    TasksDense dbDel ∧
    delete_task_run dbDel 1 1 = .ok ([sampleTask 2 1 0 2], [sampleTask 2 1 0 1]) ∧
    ¬ TasksDense [sampleTask 2 1 0 2] ∧
    BacklogsDense dbDelB ∧
    delete_backlog_run dbDelB 1 1 = .ok ([sampleBacklog 2 1 0 2], [sampleBacklog 2 1 0 1]) ∧
    ¬ BacklogsDense [sampleBacklog 2 1 0 2] := by decide

/-- C6 counterexample: in the scenario (A, B, C, D created by front-insert on
one date, so D=1, C=2, B=3, A=4), marking C complete does NOT produce the
rank assignment B=1, A=2, D=3, C=4 claimed by the spec scenario. -/
theorem completion_scenario_counterexample :
    rankView (update_task dbC6 12 1 completeUpd) ≠
      .ok [(10, 2), (11, 1), (12, 4), (13, 3)] := by decide

/-- C6 amended: marking C complete moves it to the last rank and compacts the
rest in rank order, yielding D=1, B=2, A=3, C=4 (ids A=10, B=11, C=12, D=13). -/
theorem completion_scenario_amended :
    rankView (update_task dbC6 12 1 completeUpd) =
      .ok [(10, 3), (11, 2), (12, 4), (13, 1)] := by decide

/-- Marking-complete (move to the last rank) keeps a dense multiset dense. -/
theorem denseRanks_complete_move {l : List Int} {cur : Int} (hl : denseRanks l)
    (hcur : cur ∈ l) :
    denseRanks (l.map (fun k =>
      if k = cur then (l.length : Int) else if cur < k then k - 1 else k)) := by
  have hb := denseRanks_bounds hl hcur
  have hmv := denseRanks_move hl hcur (by omega) (le_refl _)
  have : l.map (fun k =>
      if k = cur then (l.length : Int) else if cur < k then k - 1 else k) =
      l.map (fun k =>
        if k = cur then (l.length : Int) else shiftRank cur (l.length : Int) k) := by
    apply List.map_congr_left
    intro k hk
    have hkb := denseRanks_bounds hl hk
    by_cases hkc : k = cur
    · rw [if_pos hkc, if_pos hkc]
    · rw [if_neg hkc, if_neg hkc]
      unfold shiftRank
      split_ifs <;> omega
  rw [this]
  exact hmv

/-- Marking-incomplete from the last rank (move to rank 1) keeps a dense
multiset dense. -/
theorem denseRanks_incomplete_move {l : List Int} {cur : Int} (hl : denseRanks l)
    (hcur : cur ∈ l) (hlast : cur = (l.length : Int)) :
    denseRanks (l.map (fun k => if k = cur then 1 else k + 1)) := by
  have hb := denseRanks_bounds hl hcur
  have hnd := denseRanks_nodup hl
  have hmv := denseRanks_move hl hcur (le_refl 1) (by omega)
  have : l.map (fun k => if k = cur then 1 else k + 1) =
      l.map (fun k => if k = cur then 1 else shiftRank cur 1 k) := by
    apply List.map_congr_left
    intro k hk
    have hkb := denseRanks_bounds hl hk
    by_cases hkc : k = cur
    · rw [if_pos hkc, if_pos hkc]
    · rw [if_neg hkc, if_neg hkc]
      unfold shiftRank
      have : k < cur := by
        rcases lt_trichotomy k cur with h | h | h
        · exact h
        · exact absurd h hkc
        · omega
      split_ifs <;> omega
  rw [this]
  exact hmv

theorem denseRanks_perm {l l' : List Int} (hp : l.Perm l') (h : denseRanks l') :
    denseRanks l := by
  show l.Perm (rangeRanks l.length)
  rw [hp.length_eq]
  exact hp.trans h

/-- PATCH order branch keeps every group dense. -/
theorem TasksDense_move (db : List Task) (task : Task) (n : Int)
    (hid : TaskIdsNodup db) (hmem : task ∈ db) (hdense : TasksDense db) (h1 : 1 ≤ n) :
    TasksDense (db.map (moveFn db task n)) := by
  rw [TasksDense_iff] at hdense ⊢
  intro uid' d'
  have hfu := moveFn_user_id db task n
  have hfd := moveFn_date db task n
  have hsg : sameGroup task.user_id task.date task = true := by unfold sameGroup; simp
  have hcount : (db.filter (fun t =>
        sameGroup task.user_id task.date t && t.id != task.id)).length + 1 =
      (db.filter (sameGroup task.user_id task.date)).length :=
    length_filter_and_ne db (fun t => t.id) task _ hid hmem hsg
  obtain ⟨r, hr1, hrN, hrval⟩ : ∃ r : Int, 1 ≤ r ∧
      r ≤ ((db.filter (sameGroup task.user_id task.date)).length : Int) ∧
      ∀ t, moveFn db task n t =
        (if t.id == task.id then { t with order := r }
         else if sameGroup task.user_id task.date t then
           { t with order := shiftRank task.order r t.order }
         else t) := by
    refine ⟨if n > ((db.filter (fun t =>
        sameGroup task.user_id task.date t && t.id != task.id)).length : Int) + 1
      then ((db.filter (fun t =>
        sameGroup task.user_id task.date t && t.id != task.id)).length : Int) + 1
      else n, ?_, ?_, fun t => rfl⟩
    · split_ifs <;> omega
    · split_ifs <;> omega
  have hlen : (taskRanks db task.user_id task.date).length =
      (db.filter (sameGroup task.user_id task.date)).length := by
    unfold taskRanks
    rw [List.length_map]
  by_cases hgroup : uid' = task.user_id ∧ d' = task.date
  · obtain ⟨rfl, rfl⟩ := hgroup
    rw [taskRanks_map_group hfu hfd task.user_id task.date
      (fun k => if k = task.order then r else shiftRank task.order r k) ?_]
    · exact denseRanks_move (hdense _ _)
        (List.mem_map_of_mem _ (List.mem_filter.2 ⟨hmem, hsg⟩))
        hr1 (by rw [hlen]; exact hrN)
    · intro t ht htg
      rw [hrval t]
      by_cases hidq : (t.id == task.id) = true
      · have ht_eq : t = task := task_eq_of_id_eq hid ht hmem (by simpa using hidq)
        rw [if_pos hidq]
        show r = (if t.order = task.order then r else shiftRank task.order r t.order)
        rw [if_pos (show t.order = task.order from by rw [ht_eq])]
      · rw [if_neg hidq, if_pos htg]
        show shiftRank task.order r t.order =
          (if t.order = task.order then r else shiftRank task.order r t.order)
        have hordne : t.order ≠ task.order := by
          intro h
          have heq := List.inj_on_of_nodup_map (denseRanks_nodup (hdense task.user_id task.date))
            (List.mem_filter.2 ⟨ht, htg⟩) (List.mem_filter.2 ⟨hmem, hsg⟩) h
          exact hidq (by rw [heq]; simp)
        rw [if_neg hordne]
  · rw [taskRanks_map_invariant hfu hfd uid' d' ?_]
    · exact hdense uid' d'
    · intro t ht htg
      rw [hrval t]
      have htne : ¬ ((t.id == task.id) = true) := by
        intro hidq
        have ht_eq : t = task := task_eq_of_id_eq hid ht hmem (by simpa using hidq)
        rw [ht_eq] at htg
        unfold sameGroup at htg
        simp only [Bool.and_eq_true, beq_iff_eq] at htg
        exact hgroup ⟨htg.1.symm, htg.2.symm⟩
      have htgo : ¬ (sameGroup task.user_id task.date t = true) := by
        intro hmem2
        unfold sameGroup at htg hmem2
        simp only [Bool.and_eq_true, beq_iff_eq] at htg hmem2
        exact hgroup ⟨htg.1 ▸ hmem2.1.symm ▸ rfl, htg.2 ▸ hmem2.2.symm ▸ rfl⟩
      rw [if_neg htne, if_neg htgo]

/-- Marking-complete keeps every group dense. -/
theorem TasksDense_complete_true (db : List Task) (task : Task) (v : Option Bool)
    (hid : TaskIdsNodup db) (hmem : task ∈ db) (hdense : TasksDense db) :
    TasksDense (db.map (completeTrueFn db task v)) := by
  rw [TasksDense_iff] at hdense ⊢
  intro uid' d'
  have hfu : ∀ t, (completeTrueFn db task v t).user_id = t.user_id := by
    intro t; unfold completeTrueFn; split_ifs <;> rfl
  have hfd : ∀ t, (completeTrueFn db task v t).date = t.date := by
    intro t; unfold completeTrueFn; split_ifs <;> rfl
  have hsg : sameGroup task.user_id task.date task = true := by unfold sameGroup; simp
  have hcount : (db.filter (fun t =>
        sameGroup task.user_id task.date t && t.id != task.id)).length + 1 =
      (db.filter (sameGroup task.user_id task.date)).length :=
    length_filter_and_ne db (fun t => t.id) task _ hid hmem hsg
  have hlen : (taskRanks db task.user_id task.date).length =
      (db.filter (sameGroup task.user_id task.date)).length := by
    unfold taskRanks
    rw [List.length_map]
  by_cases hgroup : uid' = task.user_id ∧ d' = task.date
  · obtain ⟨rfl, rfl⟩ := hgroup
    rw [taskRanks_map_group hfu hfd task.user_id task.date
      (fun k => if k = task.order then ((taskRanks db task.user_id task.date).length : Int)
        else if task.order < k then k - 1 else k) ?_]
    · exact denseRanks_complete_move (hdense _ _)
        (List.mem_map_of_mem _ (List.mem_filter.2 ⟨hmem, hsg⟩))
    · intro t ht htg
      unfold completeTrueFn
      by_cases hidq : (t.id == task.id) = true
      · have ht_eq : t = task := task_eq_of_id_eq hid ht hmem (by simpa using hidq)
        rw [if_pos hidq]
        show ((db.filter (fun t =>
            sameGroup task.user_id task.date t && t.id != task.id)).length : Int) + 1 =
          (if t.order = task.order then ((taskRanks db task.user_id task.date).length : Int)
           else if task.order < t.order then t.order - 1 else t.order)
        rw [if_pos (show t.order = task.order from by rw [ht_eq])]
        omega
      · rw [if_neg hidq]
        have hordne : t.order ≠ task.order := by
          intro h
          have heq := List.inj_on_of_nodup_map (denseRanks_nodup (hdense task.user_id task.date))
            (List.mem_filter.2 ⟨ht, htg⟩) (List.mem_filter.2 ⟨hmem, hsg⟩) h
          exact hidq (by rw [heq]; simp)
        by_cases hgt : task.order < t.order
        · rw [if_pos (by rw [htg]; simpa using hgt)]
          show t.order - 1 =
            (if t.order = task.order then ((taskRanks db task.user_id task.date).length : Int)
             else if task.order < t.order then t.order - 1 else t.order)
          rw [if_neg hordne, if_pos hgt]
        · rw [if_neg (by simp [htg]; omega)]
          show t.order =
            (if t.order = task.order then ((taskRanks db task.user_id task.date).length : Int)
             else if task.order < t.order then t.order - 1 else t.order)
          rw [if_neg hordne, if_neg hgt]
  · rw [taskRanks_map_invariant hfu hfd uid' d' ?_]
    · exact hdense uid' d'
    · intro t ht htg
      unfold completeTrueFn
      have htne : ¬ ((t.id == task.id) = true) := by
        intro hidq
        have ht_eq : t = task := task_eq_of_id_eq hid ht hmem (by simpa using hidq)
        rw [ht_eq] at htg
        unfold sameGroup at htg
        simp only [Bool.and_eq_true, beq_iff_eq] at htg
        exact hgroup ⟨htg.1.symm, htg.2.symm⟩
      have htgo : sameGroup task.user_id task.date t = false := by
        by_cases hmem2 : sameGroup task.user_id task.date t = true
        · exfalso
          unfold sameGroup at htg hmem2
          simp only [Bool.and_eq_true, beq_iff_eq] at htg hmem2
          exact hgroup ⟨htg.1 ▸ hmem2.1.symm ▸ rfl, htg.2 ▸ hmem2.2.symm ▸ rfl⟩
        · simpa using hmem2
      rw [if_neg htne, if_neg (by simp [htgo])]

/-- Marking-incomplete from the last rank keeps every group dense. -/
theorem TasksDense_complete_false (db : List Task) (task : Task) (v : Option Bool)
    (hid : TaskIdsNodup db) (hmem : task ∈ db) (hdense : TasksDense db)
    (hlast : task.order = ((db.filter (sameGroup task.user_id task.date)).length : Int)) :
    TasksDense (db.map (completeFalseFn task v)) := by
  rw [TasksDense_iff] at hdense ⊢
  intro uid' d'
  have hfu : ∀ t, (completeFalseFn task v t).user_id = t.user_id := by
    intro t; unfold completeFalseFn; split_ifs <;> rfl
  have hfd : ∀ t, (completeFalseFn task v t).date = t.date := by
    intro t; unfold completeFalseFn; split_ifs <;> rfl
  have hsg : sameGroup task.user_id task.date task = true := by unfold sameGroup; simp
  have hlen : (taskRanks db task.user_id task.date).length =
      (db.filter (sameGroup task.user_id task.date)).length := by
    unfold taskRanks
    rw [List.length_map]
  by_cases hgroup : uid' = task.user_id ∧ d' = task.date
  · obtain ⟨rfl, rfl⟩ := hgroup
    rw [taskRanks_map_group hfu hfd task.user_id task.date
      (fun k => if k = task.order then 1 else k + 1) ?_]
    · exact denseRanks_incomplete_move (hdense _ _)
        (List.mem_map_of_mem _ (List.mem_filter.2 ⟨hmem, hsg⟩))
        (by rw [hlast, hlen])
    · intro t ht htg
      unfold completeFalseFn
      by_cases hidq : (t.id == task.id) = true
      · have ht_eq : t = task := task_eq_of_id_eq hid ht hmem (by simpa using hidq)
        rw [if_pos hidq]
        show (1 : Int) = (if t.order = task.order then 1 else t.order + 1)
        rw [if_pos (show t.order = task.order from by rw [ht_eq])]
      · rw [if_neg hidq, if_pos htg]
        have hordne : t.order ≠ task.order := by
          intro h
          have heq := List.inj_on_of_nodup_map (denseRanks_nodup (hdense task.user_id task.date))
            (List.mem_filter.2 ⟨ht, htg⟩) (List.mem_filter.2 ⟨hmem, hsg⟩) h
          exact hidq (by rw [heq]; simp)
        show t.order + 1 = (if t.order = task.order then 1 else t.order + 1)
        rw [if_neg hordne]
  · rw [taskRanks_map_invariant hfu hfd uid' d' ?_]
    · exact hdense uid' d'
    · intro t ht htg
      unfold completeFalseFn
      have htne : ¬ ((t.id == task.id) = true) := by
        intro hidq
        have ht_eq : t = task := task_eq_of_id_eq hid ht hmem (by simpa using hidq)
        rw [ht_eq] at htg
        unfold sameGroup at htg
        simp only [Bool.and_eq_true, beq_iff_eq] at htg
        exact hgroup ⟨htg.1.symm, htg.2.symm⟩
      have htgo : ¬ (sameGroup task.user_id task.date t = true) := by
        intro hmem2
        unfold sameGroup at htg hmem2
        simp only [Bool.and_eq_true, beq_iff_eq] at htg hmem2
        exact hgroup ⟨htg.1 ▸ hmem2.1.symm ▸ rfl, htg.2 ▸ hmem2.2.symm ▸ rfl⟩
      rw [if_neg htne, if_neg htgo]

theorem filter_or_perm {α : Type} (l : List α) (p q : α → Bool) :
    (l.filter (fun a => p a || q a)).Perm
      (l.filter p ++ l.filter (fun a => q a && !(p a))) := by
  induction l with
  | nil => exact List.Perm.refl _
  | cons a t ih =>
    rw [List.filter_cons, List.filter_cons, List.filter_cons]
    by_cases hp : p a = true
    · rw [if_pos (by simp [hp]), if_pos hp, if_neg (by simp [hp])]
      exact ih.cons a
    · have hp' : p a = false := by simpa using hp
      by_cases hq : q a = true
      · rw [if_pos (by simp [hp', hq]), if_neg (by simp [hp']), if_pos (by simp [hp', hq])]
        exact (ih.cons a).trans List.perm_middle.symm
      · have hq' : q a = false := by simpa using hq
        rw [if_neg (by simp [hp', hq']), if_neg (by simp [hp']), if_neg (by simp [hq'])]
        exact ih

theorem filter_id_singleton {db : List Task} {task : Task}
    (hid : TaskIdsNodup db) (hmem : task ∈ db) :
    db.filter (fun y => y.id == task.id) = [task] := by
  have hcongr : ∀ y ∈ db, (y.id == task.id) = (y == task) := by
    intro y hy
    by_cases hxy : y = task
    · subst hxy; simp
    · have hne : y.id ≠ task.id := fun h => hxy (task_eq_of_id_eq hid hy hmem h)
      rw [beq_eq_false_iff_ne.2 hne, beq_eq_false_iff_ne.2 hxy]
  rw [List.filter_congr hcongr, List.filter_beq,
    List.count_eq_one_of_mem (List.Nodup.of_map _ hid) hmem]
  rfl

/-- After a date change, the enlarged new (user, date) group is dense. -/
theorem regroup_new_dense {db : List Task} {task : Task} {nd : Option Int}
    (hid : TaskIdsNodup db) (hmem : task ∈ db) (hne : nd ≠ task.date)
    (hdense_new : denseRanks (taskRanks db task.user_id nd)) :
    denseRanks (taskRanks (db.map (regroupFn db task nd)) task.user_id nd) := by
  unfold taskRanks
  rw [filter_of_map]
  have hpred : ∀ y ∈ db, (sameGroup task.user_id nd (regroupFn db task nd y)) =
      ((y.id == task.id) || sameGroup task.user_id nd y) := by
    intro y hy
    by_cases hyid : (y.id == task.id) = true
    · have hy_eq : y = task := task_eq_of_id_eq hid hy hmem (by simpa using hyid)
      have hFy : regroupFn db task nd y = { y with date := nd, order := 1 } := by
        unfold regroupFn
        rw [if_pos hyid]
      rw [hFy, hyid, Bool.true_or]
      unfold sameGroup
      rw [hy_eq]
      simp
    · have hd : (regroupFn db task nd y).date = y.date := by
        unfold regroupFn
        rw [if_neg hyid]
        split_ifs <;> rfl
      have hu : (regroupFn db task nd y).user_id = y.user_id := by
        unfold regroupFn
        split_ifs <;> rfl
      have hyid' : (y.id == task.id) = false := by simpa using hyid
      rw [hyid', Bool.false_or]
      unfold sameGroup
      rw [hd, hu]
  rw [List.filter_congr hpred]
  -- split target from the rest
  have hsplit := filter_or_perm db (fun y => y.id == task.id) (sameGroup task.user_id nd)
  have hpermM := hsplit.map (fun t => (regroupFn db task nd t).order)
  have hperm2 : ((db.filter (fun y => (y.id == task.id) || sameGroup task.user_id nd y)).map
      (regroupFn db task nd)).map (fun t => t.order) =
      (db.filter (fun y => (y.id == task.id) || sameGroup task.user_id nd y)).map
        (fun t => (regroupFn db task nd t).order) := by
    rw [List.map_map]
    rfl
  rw [hperm2]
  apply denseRanks_perm hpermM
  rw [List.map_append, filter_id_singleton hid hmem]
  -- target contributes rank 1
  have htarget : (regroupFn db task nd task).order = 1 := by
    unfold regroupFn
    rw [if_pos (beq_self_eq_true _)]
  -- the old members of the new group each shift up by one
  have hrest : (db.filter (fun y =>
      sameGroup task.user_id nd y && !(y.id == task.id))).map
        (fun t => (regroupFn db task nd t).order) =
      (db.filter (fun y => sameGroup task.user_id nd y && !(y.id == task.id))).map
        (fun t => t.order + 1) := by
    apply List.map_congr_left
    intro t ht
    obtain ⟨htdb, hpredt⟩ := List.mem_filter.1 ht
    simp only [Bool.and_eq_true, Bool.not_eq_true'] at hpredt
    obtain ⟨hgrp, hnid'⟩ := hpredt
    have hdt : t.date = nd := by
      unfold sameGroup at hgrp
      simp only [Bool.and_eq_true, beq_iff_eq] at hgrp
      exact hgrp.2
    unfold regroupFn
    rw [if_neg (by simp [hnid']), if_neg ?_, if_pos hgrp]
    unfold sameGroup
    rw [beq_eq_false_iff_ne.2 (show t.date ≠ task.date from by rw [hdt]; exact hne),
      Bool.and_false]
    exact Bool.false_ne_true
  rw [hrest]
  show denseRanks ([(regroupFn db task nd task).order] ++ _)
  rw [htarget]
  -- now: [1] ++ (members.map (+1)) is dense given the old new-group was dense
  have hmm : (db.filter (fun y => sameGroup task.user_id nd y && !(y.id == task.id))).map
      (fun t => t.order + 1) =
      ((db.filter (sameGroup task.user_id nd)).map (fun t => t.order)).map
        (fun k => k + 1) := by
    have hfeq : db.filter (fun y => sameGroup task.user_id nd y && !(y.id == task.id)) =
        db.filter (sameGroup task.user_id nd) := by
      apply List.filter_congr
      intro y hy
      by_cases hg : sameGroup task.user_id nd y = true
      · rw [hg, Bool.true_and]
        have : (y.id == task.id) = false := by
          by_cases hyid : (y.id == task.id) = true
          · exfalso
            have hy_eq : y = task := task_eq_of_id_eq hid hy hmem (by simpa using hyid)
            rw [hy_eq] at hg
            unfold sameGroup at hg
            simp only [Bool.and_eq_true, beq_iff_eq] at hg
            exact hne hg.2.symm
          · simpa using hyid
        rw [this]
        rfl
      · have hg' : sameGroup task.user_id nd y = false := by simpa using hg
        rw [hg', Bool.false_and]
    rw [hfeq, List.map_map]
    rfl
  rw [hmm]
  have := denseRanks_front_insert hdense_new
  unfold taskRanks at this
  apply denseRanks_perm _ this
  exact List.perm_append_comm

/-- A date change leaves every group other than the old and the new one
untouched. -/
theorem regroup_other_invariant {db : List Task} {task : Task} {nd : Option Int}
    (hid : TaskIdsNodup db) (hmem : task ∈ db)
    (uid' : Nat) (d' : Option Int)
    (h1 : ¬ (uid' = task.user_id ∧ d' = task.date))
    (h2 : ¬ (uid' = task.user_id ∧ d' = nd)) :
    taskRanks (db.map (regroupFn db task nd)) uid' d' = taskRanks db uid' d' := by
  unfold taskRanks
  rw [filter_of_map]
  have hpred : ∀ y ∈ db, (sameGroup uid' d' (regroupFn db task nd y)) =
      sameGroup uid' d' y := by
    intro y hy
    by_cases hyid : (y.id == task.id) = true
    · have hy_eq : y = task := task_eq_of_id_eq hid hy hmem (by simpa using hyid)
      have hFy : regroupFn db task nd y = { y with date := nd, order := 1 } := by
        unfold regroupFn
        rw [if_pos hyid]
      rw [hFy]
      unfold sameGroup
      have hL : (({ y with date := nd, order := 1 } : Task).date == d') = (nd == d') := rfl
      rw [hL]
      by_cases huser : (y.user_id == uid') = true
      · have huser' : uid' = task.user_id := by
          rw [← hy_eq]
          exact (by simpa using huser : y.user_id = uid').symm
        have hnd' : (nd == d') = false := by
          refine beq_eq_false_iff_ne.2 (fun hc => ?_)
          exact h2 ⟨huser', hc.symm⟩
        have hod' : (y.date == d') = false := by
          refine beq_eq_false_iff_ne.2 (fun hc => ?_)
          exact h1 ⟨huser', by rw [← hy_eq, ← hc]⟩
        rw [hnd', hod']
      · have huser' : (y.user_id == uid') = false := by simpa using huser
        rw [huser', Bool.false_and, Bool.false_and]
    · have hd : (regroupFn db task nd y).date = y.date := by
        unfold regroupFn
        rw [if_neg hyid]
        split_ifs <;> rfl
      have hu : (regroupFn db task nd y).user_id = y.user_id := by
        unfold regroupFn
        split_ifs <;> rfl
      unfold sameGroup
      rw [hd, hu]
  rw [List.filter_congr hpred, List.map_map]
  apply List.map_congr_left
  intro t ht
  obtain ⟨htdb, htg⟩ := List.mem_filter.1 ht
  have htne : (t.id == task.id) = false := by
    by_cases hyid : (t.id == task.id) = true
    · exfalso
      have ht_eq : t = task := task_eq_of_id_eq hid htdb hmem (by simpa using hyid)
      rw [ht_eq] at htg
      unfold sameGroup at htg
      simp only [Bool.and_eq_true, beq_iff_eq] at htg
      exact h1 ⟨htg.1.symm, htg.2.symm⟩
    · simpa using hyid
  show (regroupFn db task nd t).order = t.order
  unfold regroupFn
  rw [if_neg (by simp [htne]), if_neg ?_, if_neg ?_]
  · unfold sameGroup at htg ⊢
    simp only [Bool.and_eq_true, beq_iff_eq] at htg ⊢
    intro hc
    exact h2 ⟨htg.1 ▸ hc.1.symm ▸ rfl, htg.2 ▸ hc.2.symm ▸ rfl⟩
  · unfold sameGroup at htg ⊢
    simp only [Bool.and_eq_true, beq_iff_eq] at htg ⊢
    intro hc
    exact h1 ⟨htg.1 ▸ hc.1.symm ▸ rfl, htg.2 ▸ hc.2.symm ▸ rfl⟩

/-- PATCH date branch keeps every group dense. -/
theorem TasksDense_regroup (db : List Task) (task : Task) (nd : Option Int)
    (hid : TaskIdsNodup db) (hmem : task ∈ db) (hdense : TasksDense db)
    (hne : nd ≠ task.date) :
    TasksDense (db.map (regroupFn db task nd)) := by
  rw [TasksDense_iff] at hdense ⊢
  intro uid' d'
  by_cases hold : uid' = task.user_id ∧ d' = task.date
  · obtain ⟨rfl, rfl⟩ := hold
    exact regroup_old_dense hid hmem hne
  · by_cases hnew : uid' = task.user_id ∧ d' = nd
    · obtain ⟨rfl, rfl⟩ := hnew
      exact regroup_new_dense hid hmem hne (hdense _ _)
    · rw [regroup_other_invariant hid hmem uid' d' hold hnew]
      exact hdense uid' d'

/-- The final committed state of DELETE /tasks keeps every group dense. -/
theorem TasksDense_delete_final (db : List Task) (task : Task)
    (hid : TaskIdsNodup db) (hmem : task ∈ db) (hdense : TasksDense db) :
    TasksDense
      ((db.eraseP (fun t => t.id == task.id && t.user_id == task.user_id)).map
        (renumberFn (db.eraseP (fun t => t.id == task.id && t.user_id == task.user_id))
          task.user_id task.date)) := by
  rw [TasksDense_iff] at hdense ⊢
  intro uid' d'
  have hsub : (db.eraseP
      (fun t => t.id == task.id && t.user_id == task.user_id)).Sublist db :=
    List.eraseP_sublist _
  have hid1 : TaskIdsNodup (db.eraseP
      (fun t => t.id == task.id && t.user_id == task.user_id)) :=
    List.Nodup.sublist (List.Sublist.map _ hsub) hid
  have hfu : ∀ t, (renumberFn (db.eraseP
      (fun t => t.id == task.id && t.user_id == task.user_id))
        task.user_id task.date t).user_id = t.user_id := by
    intro t; unfold renumberFn; split_ifs <;> rfl
  have hfd : ∀ t, (renumberFn (db.eraseP
      (fun t => t.id == task.id && t.user_id == task.user_id))
        task.user_id task.date t).date = t.date := by
    intro t; unfold renumberFn; split_ifs <;> rfl
  by_cases hgroup : uid' = task.user_id ∧ d' = task.date
  · obtain ⟨rfl, rfl⟩ := hgroup
    rw [taskRanks_map_eq task.user_id task.date hfu hfd]
    have hpt : ((db.eraseP (fun t => t.id == task.id && t.user_id == task.user_id)).filter
        (sameGroup task.user_id task.date)).map
          (fun t => (renumberFn (db.eraseP
            (fun t => t.id == task.id && t.user_id == task.user_id))
              task.user_id task.date t).order) =
        ((db.eraseP (fun t => t.id == task.id && t.user_id == task.user_id)).filter
          (sameGroup task.user_id task.date)).map
            (fun t => (((sortByOrder ((db.eraseP
              (fun t => t.id == task.id && t.user_id == task.user_id)).filter
                (sameGroup task.user_id task.date))).findIdx
                  (fun m => m.id == t.id) : Nat) : Int) + 1) := by
      apply List.map_congr_left
      intro t ht
      show (renumberFn _ _ _ t).order = _
      unfold renumberFn
      rw [if_pos (List.mem_filter.1 ht).2]
    rw [hpt]
    exact denseRanks_renumber (idsNodup_filter hid1 _)
  · rw [taskRanks_map_invariant hfu hfd uid' d' ?_]
    · have hfe : taskRanks (db.eraseP
          (fun t => t.id == task.id && t.user_id == task.user_id)) uid' d' =
          taskRanks db uid' d' := by
        unfold taskRanks
        rw [filter_eraseP_of_disj db
          (fun t => t.id == task.id && t.user_id == task.user_id)
          (sameGroup uid' d') ?_]
        intro t htm hg
        by_contra hcon
        rw [Bool.not_eq_false, Bool.and_eq_true, beq_iff_eq, beq_iff_eq] at hcon
        have ht := task_eq_of_id_eq hid htm hmem hcon.1
        rw [ht] at hg
        unfold sameGroup at hg
        rw [Bool.and_eq_true, beq_iff_eq, beq_iff_eq] at hg
        exact hgroup ⟨hg.1.symm, hg.2.symm⟩
      rw [hfe]
      exact hdense uid' d'
    · intro t htm hg
      unfold renumberFn
      rw [if_neg]
      intro hcon
      unfold sameGroup at hg hcon
      rw [Bool.and_eq_true, beq_iff_eq, beq_iff_eq] at hg hcon
      exact hgroup ⟨hg.1 ▸ hcon.1.symm ▸ rfl, hg.2 ▸ hcon.2.symm ▸ rfl⟩

/-- A user-preserving row map commutes with the owner filter. -/
theorem filter_sameOwner_map {db : List Backlog} {f : Backlog → Backlog} (uid : Nat)
    (hfu : ∀ b, (f b).user_id = b.user_id) :
    (db.map f).filter (sameOwner uid) = (db.filter (sameOwner uid)).map f := by
  rw [filter_of_map]
  congr 1
  apply List.filter_congr
  intro y _
  unfold sameOwner
  rw [hfu]

/-- If a row map keeps owners and the ranks of a user's backlogs, that user's
rank list is unchanged. -/
theorem backlogRanks_map_invariant {db : List Backlog} {f : Backlog → Backlog}
    (hfu : ∀ b, (f b).user_id = b.user_id) (uid : Nat)
    (hoff : ∀ b ∈ db, sameOwner uid b = true → (f b).order = b.order) :
    backlogRanks (db.map f) uid = backlogRanks db uid := by
  rw [backlogRanks_map_eq uid hfu]
  unfold backlogRanks
  apply List.map_congr_left
  intro b hb
  exact hoff b (List.mem_filter.1 hb).1 (List.mem_filter.1 hb).2

/-- If a row map rewrites every rank of a user's backlogs through the value
function `g`, the rank list is mapped through `g`. -/
theorem backlogRanks_map_group {db : List Backlog} {f : Backlog → Backlog}
    (hfu : ∀ b, (f b).user_id = b.user_id) (uid : Nat) (g : Int → Int)
    (hval : ∀ b ∈ db, sameOwner uid b = true → (f b).order = g b.order) :
    backlogRanks (db.map f) uid = (backlogRanks db uid).map g := by
  rw [backlogRanks_map_eq uid hfu]
  unfold backlogRanks
  rw [List.map_map]
  apply List.map_congr_left
  intro b hb
  exact hval b (List.mem_filter.1 hb).1 (List.mem_filter.1 hb).2

/-- POST /backlogs/ keeps every user's backlog group dense. -/
theorem BacklogsDense_create (db : List Backlog) (uid : Nat) (c : BacklogCreate)
    (new_id : Nat) (today : Int) (h : BacklogsDense db) :
    BacklogsDense (create_backlog db uid c new_id today) := by
  rw [BacklogsDense_iff] at h ⊢
  intro uid'
  unfold create_backlog backlogRanks
  rw [List.filter_append, List.map_append]
  have hfu : ∀ b : Backlog,
      ((fun b => if sameOwner uid b then { b with order := b.order + 1 } else b) b).user_id =
        b.user_id := by
    intro b; dsimp only; split_ifs <;> rfl
  by_cases hgroup : uid' = uid
  · subst hgroup
    have hnew : (List.filter (sameOwner uid')
        [{ id := new_id, user_id := uid', date := today, detail := c.detail, order := 1 }]) =
        [{ id := new_id, user_id := uid', date := today, detail := c.detail, order := 1 }] := by
      rw [List.filter_cons, if_pos (by unfold sameOwner; simp)]
      rfl
    rw [filter_sameOwner_map uid' hfu, hnew, List.map_map]
    have hshift : (db.filter (sameOwner uid')).map
        ((fun b => b.order) ∘
          (fun b => if sameOwner uid' b then { b with order := b.order + 1 } else b)) =
        ((db.filter (sameOwner uid')).map (fun b => b.order)).map (fun k => k + 1) := by
      rw [List.map_map]
      apply List.map_congr_left
      intro b hb
      show ((if sameOwner uid' b then { b with order := b.order + 1 } else b)).order =
        b.order + 1
      rw [if_pos (List.mem_filter.1 hb).2]
    rw [hshift]
    have := denseRanks_front_insert (h uid')
    unfold backlogRanks at this
    exact this
  · have hnew : (List.filter (sameOwner uid')
        [{ id := new_id, user_id := uid, date := today, detail := c.detail, order := 1 }]) =
        ([] : List Backlog) := by
      rw [List.filter_cons, if_neg ?_]
      · rfl
      · unfold sameOwner
        simp only [beq_iff_eq]
        intro hc
        exact hgroup hc.symm
    rw [filter_sameOwner_map uid' hfu, hnew, List.map_nil, List.map_map, List.append_nil]
    have hoff : (db.filter (sameOwner uid')).map
        ((fun b => b.order) ∘
          (fun b => if sameOwner uid b then { b with order := b.order + 1 } else b)) =
        (db.filter (sameOwner uid')).map (fun b => b.order) := by
      apply List.map_congr_left
      intro b hb
      show ((if sameOwner uid b then { b with order := b.order + 1 } else b)).order = b.order
      rw [if_neg ?_]
      intro hc
      have h1 := (List.mem_filter.1 hb).2
      unfold sameOwner at hc h1
      simp only [beq_iff_eq] at hc h1
      exact hgroup (h1 ▸ hc.symm ▸ rfl)
    rw [hoff]
    exact h uid'

/-- PATCH /backlogs order branch keeps every user's backlog group dense. -/
theorem BacklogsDense_move (db : List Backlog) (backlog : Backlog) (n : Int)
    (hid : BacklogIdsNodup db) (hmem : backlog ∈ db) (hdense : BacklogsDense db)
    (h1 : 1 ≤ n) :
    BacklogsDense (db.map (moveFnB db backlog n)) := by
  rw [BacklogsDense_iff] at hdense ⊢
  intro uid'
  have hfu := moveFnB_user_id db backlog n
  have hsg : sameOwner backlog.user_id backlog = true := by unfold sameOwner; simp
  have hcount : (db.filter (fun b =>
        sameOwner backlog.user_id b && b.id != backlog.id)).length + 1 =
      (db.filter (sameOwner backlog.user_id)).length :=
    length_filter_and_ne db (fun b => b.id) backlog _ hid hmem hsg
  obtain ⟨r, hr1, hrN, hrval⟩ : ∃ r : Int, 1 ≤ r ∧
      r ≤ ((db.filter (sameOwner backlog.user_id)).length : Int) ∧
      ∀ b, moveFnB db backlog n b =
        (if b.id == backlog.id then { b with order := r }
         else if sameOwner backlog.user_id b then
           { b with order := shiftRank backlog.order r b.order }
         else b) := by
    refine ⟨if n > ((db.filter (fun b =>
        sameOwner backlog.user_id b && b.id != backlog.id)).length : Int) + 1
      then ((db.filter (fun b =>
        sameOwner backlog.user_id b && b.id != backlog.id)).length : Int) + 1
      else n, ?_, ?_, fun b => rfl⟩
    · split_ifs <;> omega
    · split_ifs <;> omega
  have hlen : (backlogRanks db backlog.user_id).length =
      (db.filter (sameOwner backlog.user_id)).length := by
    unfold backlogRanks
    rw [List.length_map]
  by_cases hgroup : uid' = backlog.user_id
  · subst hgroup
    rw [backlogRanks_map_group hfu backlog.user_id
      (fun k => if k = backlog.order then r else shiftRank backlog.order r k) ?_]
    · exact denseRanks_move (hdense _)
        (List.mem_map_of_mem _ (List.mem_filter.2 ⟨hmem, hsg⟩))
        hr1 (by rw [hlen]; exact hrN)
    · intro b hb hbg
      rw [hrval b]
      by_cases hidq : (b.id == backlog.id) = true
      · have hb_eq : b = backlog := backlog_eq_of_id_eq hid hb hmem (by simpa using hidq)
        rw [if_pos hidq]
        show r = (if b.order = backlog.order then r else shiftRank backlog.order r b.order)
        rw [if_pos (show b.order = backlog.order from by rw [hb_eq])]
      · rw [if_neg hidq, if_pos hbg]
        show shiftRank backlog.order r b.order =
          (if b.order = backlog.order then r else shiftRank backlog.order r b.order)
        have hordne : b.order ≠ backlog.order := by
          intro h
          have heq := List.inj_on_of_nodup_map (denseRanks_nodup (hdense backlog.user_id))
            (List.mem_filter.2 ⟨hb, hbg⟩) (List.mem_filter.2 ⟨hmem, hsg⟩) h
          exact hidq (by rw [heq]; simp)
        rw [if_neg hordne]
  · rw [backlogRanks_map_invariant hfu uid' ?_]
    · exact hdense uid'
    · intro b hb hbg
      rw [hrval b]
      have hbne : ¬ ((b.id == backlog.id) = true) := by
        intro hidq
        have hb_eq : b = backlog := backlog_eq_of_id_eq hid hb hmem (by simpa using hidq)
        rw [hb_eq] at hbg
        unfold sameOwner at hbg
        simp only [beq_iff_eq] at hbg
        exact hgroup hbg.symm
      have hbgo : ¬ (sameOwner backlog.user_id b = true) := by
        intro hmem2
        unfold sameOwner at hbg hmem2
        simp only [beq_iff_eq] at hbg hmem2
        exact hgroup (hbg ▸ hmem2.symm ▸ rfl)
      rw [if_neg hbne, if_neg hbgo]

theorem delete_backlog_run_eq {db : List Backlog} {backlog_id user_id : Nat}
    {backlog : Backlog}
    (hfind : firstBacklog db backlog_id user_id = some backlog) :
    delete_backlog_run db backlog_id user_id =
      .ok (db.eraseP (fun b => b.id == backlog_id && b.user_id == user_id),
           (db.eraseP (fun b => b.id == backlog_id && b.user_id == user_id)).map
             (fun b => if sameOwner user_id b && b.order > backlog.order then
                 { b with order := b.order - 1 } else b)) := by
  unfold delete_backlog_run
  rw [hfind]

/-- The final committed state of DELETE /backlogs keeps every user's backlog
group dense. -/
theorem BacklogsDense_delete_final (db : List Backlog) (backlog : Backlog)
    (hid : BacklogIdsNodup db) (hmem : backlog ∈ db) (hdense : BacklogsDense db) :
    BacklogsDense
      ((db.eraseP (fun b => b.id == backlog.id && b.user_id == backlog.user_id)).map
        (fun b => if sameOwner backlog.user_id b && b.order > backlog.order then
            { b with order := b.order - 1 } else b)) := by
  rw [BacklogsDense_iff] at hdense ⊢
  intro uid'
  have hfu : ∀ b : Backlog,
      ((fun b => if sameOwner backlog.user_id b && b.order > backlog.order then
          { b with order := b.order - 1 } else b) b).user_id = b.user_id := by
    intro b; dsimp only; split_ifs <;> rfl
  by_cases hgroup : uid' = backlog.user_id
  · subst hgroup
    have hpb : (fun b : Backlog =>
        b.id == backlog.id && b.user_id == backlog.user_id) backlog = true := by simp
    obtain ⟨a, l1, l2, hnl1, hpa, hdbeq, heraseq⟩ :=
      @List.exists_of_eraseP Backlog
        (fun b => b.id == backlog.id && b.user_id == backlog.user_id) db backlog hmem hpb
    have hamem : a ∈ db := by rw [hdbeq]; exact List.mem_append_right _ (List.mem_cons_self _ _)
    have haeq : a = backlog := by
      apply backlog_eq_of_id_eq hid hamem hmem
      simp only [Bool.and_eq_true, beq_iff_eq] at hpa
      exact hpa.1
    subst haeq
    have hsga : sameOwner a.user_id a = true := by unfold sameOwner; simp
    have hperm : (a.order :: backlogRanks (db.eraseP (fun b =>
        b.id == a.id && b.user_id == a.user_id)) a.user_id).Perm
        (backlogRanks db a.user_id) := by
      unfold backlogRanks
      rw [heraseq, hdbeq, List.filter_append, List.filter_append, List.map_append,
        List.map_append, List.filter_cons, if_pos hsga, List.map_cons]
      exact List.perm_middle.symm
    rw [backlogRanks_map_group hfu a.user_id
      (fun k => if a.order < k then k - 1 else k) ?_]
    · exact denseRanks_remove_shift (hdense a.user_id) hperm
    · intro b hb hbg
      by_cases ho : a.order < b.order
      · dsimp only
        rw [if_pos (by rw [hbg, Bool.true_and]; exact decide_eq_true ho), if_pos ho]
      · dsimp only
        rw [if_neg ?_, if_neg ho]
        rw [hbg, Bool.true_and]
        exact fun hc => ho (of_decide_eq_true hc)
  · rw [backlogRanks_map_invariant hfu uid' ?_]
    · have hfe : backlogRanks (db.eraseP (fun b =>
          b.id == backlog.id && b.user_id == backlog.user_id)) uid' =
          backlogRanks db uid' := by
        unfold backlogRanks
        rw [filter_eraseP_of_disj db
          (fun b => b.id == backlog.id && b.user_id == backlog.user_id)
          (sameOwner uid') ?_]
        intro b hbm hbg
        by_contra hcon
        rw [Bool.not_eq_false, Bool.and_eq_true, beq_iff_eq, beq_iff_eq] at hcon
        unfold sameOwner at hbg
        rw [beq_iff_eq] at hbg
        exact hgroup (hbg ▸ hcon.2.symm ▸ rfl)
      rw [hfe]
      exact hdense uid'
    · intro b hb hbg
      dsimp only
      rw [if_neg ?_]
      unfold sameOwner at hbg ⊢
      rw [beq_iff_eq] at hbg
      rw [Bool.and_eq_true]
      rintro ⟨hc, -⟩
      rw [beq_iff_eq] at hc
      exact hgroup (hbg ▸ hc.symm ▸ rfl)

/-- A row map that keeps user, date, and rank of every row keeps every group
dense. -/
theorem TasksDense_of_order_preserving {db : List Task} {f : Task → Task}
    (hfu : ∀ t, (f t).user_id = t.user_id) (hfd : ∀ t, (f t).date = t.date)
    (hfo : ∀ t, (f t).order = t.order) (hdense : TasksDense db) :
    TasksDense (db.map f) := by
  rw [TasksDense_iff] at hdense ⊢
  intro uid' d'
  rw [taskRanks_map_invariant hfu hfd uid' d' (fun t _ _ => hfo t)]
  exact hdense uid' d'

/-- A row map that keeps owner and rank of every row keeps every backlog group
dense. -/
theorem BacklogsDense_of_order_preserving {db : List Backlog} {f : Backlog → Backlog}
    (hfu : ∀ b, (f b).user_id = b.user_id) (hfo : ∀ b, (f b).order = b.order)
    (hdense : BacklogsDense db) :
    BacklogsDense (db.map f) := by
  rw [BacklogsDense_iff] at hdense ⊢
  intro uid'
  rw [backlogRanks_map_invariant hfu uid' (fun b _ _ => hfo b)]
  exact hdense uid'

/-- A PATCH /tasks body touching more than one update group is rejected. -/
theorem update_task_conflict {db : List Task} {task : Task} {u : TaskUpdate}
    (hfind : firstTask db task.id task.user_id = some task)
    (hgt : taskMatchedGroups u > 1) :
    update_task db task.id task.user_id u = .error (.badRequest
      "Only one type of update is allowed per request (order, title/note, or is_completed).") := by
  unfold update_task
  rw [hfind]
  dsimp only
  rw [if_pos hgt]

/-- The title/note branch of `update_task`. -/
theorem update_task_text_ok {db : List Task} {task : Task}
    {tv nv : Option (Option String)}
    (hfind : firstTask db task.id task.user_id = some task)
    (hsome : (tv.isSome || nv.isSome) = true) :
    update_task db task.id task.user_id
        { date := none, title := tv, note := nv, is_completed := none, order := none } =
      .ok (db.map (fun t =>
        if t.id == task.id then
          { t with title := tv.getD t.title, note := nv.getD t.note }
        else t)) := by
  unfold update_task
  rw [hfind]
  dsimp only
  have hmg : taskMatchedGroups
      { date := none, title := tv, note := nv, is_completed := none,
        order := (none : Option (Option Int)) } = 1 := by
    unfold taskMatchedGroups
    simp only [Option.isSome_none, Option.isSome_some, hsome]
    rfl
  rw [hmg]
  simp only [gt_iff_lt, Nat.lt_irrefl, if_false]
  rw [if_pos hsome]

/-- A PATCH /tasks body with no present field changes nothing. -/
theorem update_task_noop {db : List Task} {task : Task}
    (hfind : firstTask db task.id task.user_id = some task) :
    update_task db task.id task.user_id
      { date := none, title := none, note := none, is_completed := none, order := none } =
      .ok db := by
  unfold update_task
  rw [hfind]
  dsimp only
  simp [taskMatchedGroups]

/-- Every successful PATCH /tasks keeps all groups dense, provided a request
that marks the task incomplete finds it at the last rank of its group. -/
theorem TasksDense_update {db db' : List Task} {tid uid : Nat} {u : TaskUpdate}
    (hid : TaskIdsNodup db) (hdense : TasksDense db)
    (hinc : ∀ task v, firstTask db tid uid = some task → u.is_completed = some v →
      truthy v = false →
      task.order = ((db.filter (sameGroup task.user_id task.date)).length : Int))
    (hok : update_task db tid uid u = .ok db') :
    TasksDense db' := by
  rcases hff : firstTask db tid uid with _ | task
  · unfold update_task at hok
    rw [hff] at hok
    exact absurd hok (by simp)
  obtain ⟨hmem, hbid, huid⟩ := firstTask_some_spec hff
  subst hbid
  subst huid
  have hmg : taskMatchedGroups u ≤ 1 := by
    by_contra hgt
    rw [update_task_conflict hff (by omega)] at hok
    exact absurd hok (by simp)
  rcases u with ⟨d, t, n, i, o⟩
  rcases d with _ | d <;> rcases t with _ | tv <;> rcases n with _ | nv <;>
      rcases i with _ | iv <;> rcases o with _ | ov <;>
    try (simp [taskMatchedGroups] at hmg)
  · rw [update_task_noop hff] at hok
    have hdb := Except.ok.inj hok
    subst hdb
    exact hdense
  · have hok' : update_task db task.id task.user_id (orderUpd ov) = .ok db' := hok
    rcases ov with _ | m
    · rw [update_task_order_invalid hff (Or.inl rfl)] at hok'
      exact absurd hok' (by simp)
    · by_cases h1 : 1 ≤ m
      · rw [update_task_order_ok hff h1] at hok'
        have hdb := Except.ok.inj hok'
        subst hdb
        exact TasksDense_move db task m hid hmem hdense h1
      · rw [update_task_order_invalid hff (Or.inr ⟨m, rfl, by omega⟩)] at hok'
        exact absurd hok' (by simp)
  · have hok' : update_task db task.id task.user_id (completedUpd iv) = .ok db' := hok
    by_cases hv : truthy iv = true
    · rw [update_task_completed_true hff hv] at hok'
      have hdb := Except.ok.inj hok'
      subst hdb
      exact TasksDense_complete_true db task iv hid hmem hdense
    · have hv' : truthy iv = false := by rwa [Bool.not_eq_true] at hv
      rw [update_task_completed_false hff hv'] at hok'
      have hdb := Except.ok.inj hok'
      subst hdb
      exact TasksDense_complete_false db task iv hid hmem hdense
        (hinc task iv hff rfl hv')
  · rw [update_task_text_ok hff ?_] at hok
    · have hdb := Except.ok.inj hok
      subst hdb
      refine TasksDense_of_order_preserving ?_ ?_ ?_ hdense <;>
        intro x <;> dsimp only <;> split_ifs <;> rfl
    · simp
  · rw [update_task_text_ok hff ?_] at hok
    · have hdb := Except.ok.inj hok
      subst hdb
      refine TasksDense_of_order_preserving ?_ ?_ ?_ hdense <;>
        intro x <;> dsimp only <;> split_ifs <;> rfl
    · simp
  · rw [update_task_text_ok hff ?_] at hok
    · have hdb := Except.ok.inj hok
      subst hdb
      refine TasksDense_of_order_preserving ?_ ?_ ?_ hdense <;>
        intro x <;> dsimp only <;> split_ifs <;> rfl
    · simp
  · have hok' : update_task db task.id task.user_id (dateUpd d) = .ok db' := hok
    by_cases hne : d ≠ task.date
    · rw [update_task_date_ok hff hne] at hok'
      have hdb := Except.ok.inj hok'
      subst hdb
      exact TasksDense_regroup db task d hid hmem hdense hne
    · rw [update_task_date_noop hff (by simpa using hne)] at hok'
      have hdb := Except.ok.inj hok'
      subst hdb
      exact hdense

/-- Every successful DELETE /tasks keeps all groups dense in the final state. -/
theorem TasksDense_delete {db db' : List Task} {tid uid : Nat}
    (hid : TaskIdsNodup db) (hdense : TasksDense db)
    (hok : delete_task db tid uid = .ok db') : TasksDense db' := by
  rcases hff : firstTask db tid uid with _ | task
  · unfold delete_task delete_task_run at hok
    rw [hff] at hok
    exact absurd hok (by simp [Except.map])
  obtain ⟨hmem, hbid, huid⟩ := firstTask_some_spec hff
  subst hbid
  subst huid
  unfold delete_task at hok
  rw [delete_task_run_eq hff] at hok
  simp only [Except.map] at hok
  have hdb := Except.ok.inj hok
  subst hdb
  exact TasksDense_delete_final db task hid hmem hdense

/-- A PATCH /backlogs body touching both update groups is rejected. -/
theorem update_backlog_conflict {db : List Backlog} {backlog : Backlog}
    {u : BacklogUpdate} {today : Int}
    (hfind : firstBacklog db backlog.id backlog.user_id = some backlog)
    (hgt : backlogMatchedGroups u > 1) :
    update_backlog db backlog.id backlog.user_id u today = .error (.badRequest
      "Only one type of update is allowed per request (order or detail).") := by
  unfold update_backlog
  rw [hfind]
  dsimp only
  rw [if_pos hgt]

/-- A PATCH /backlogs body with no present field changes nothing. -/
theorem update_backlog_noop {db : List Backlog} {backlog : Backlog} {today : Int}
    (hfind : firstBacklog db backlog.id backlog.user_id = some backlog) :
    update_backlog db backlog.id backlog.user_id { detail := none, order := none } today =
      .ok db := by
  unfold update_backlog
  rw [hfind]
  dsimp only
  simp [backlogMatchedGroups]

/-- The detail branch of `update_backlog`. -/
theorem update_backlog_detail_ok {db : List Backlog} {backlog : Backlog}
    {dv : Option String} {today : Int}
    (hfind : firstBacklog db backlog.id backlog.user_id = some backlog) :
    update_backlog db backlog.id backlog.user_id
        { detail := some dv, order := none } today =
      .ok (db.map (fun b =>
        if b.id == backlog.id then { b with detail := dv, date := today } else b)) := by
  unfold update_backlog
  rw [hfind]
  dsimp only
  rw [show backlogMatchedGroups
      { detail := some dv, order := (none : Option (Option Int)) } = 1 from rfl]
  simp only [gt_iff_lt, Nat.lt_irrefl, if_false]
  rw [if_pos (by simp : ((some dv : Option (Option String)).isSome) = true)]
  rfl

/-- Every successful PATCH /backlogs keeps all backlog groups dense. -/
theorem BacklogsDense_update {db db' : List Backlog} {bid uid : Nat}
    {u : BacklogUpdate} {today : Int}
    (hid : BacklogIdsNodup db) (hdense : BacklogsDense db)
    (hok : update_backlog db bid uid u today = .ok db') :
    BacklogsDense db' := by
  rcases hff : firstBacklog db bid uid with _ | backlog
  · unfold update_backlog at hok
    rw [hff] at hok
    exact absurd hok (by simp)
  obtain ⟨hmem, hbid, huid⟩ := firstBacklog_some_spec hff
  subst hbid
  subst huid
  have hmg : backlogMatchedGroups u ≤ 1 := by
    by_contra hgt
    rw [update_backlog_conflict hff (by omega)] at hok
    exact absurd hok (by simp)
  rcases u with ⟨dv, ov⟩
  rcases dv with _ | dv <;> rcases ov with _ | ov <;>
    try (simp [backlogMatchedGroups] at hmg)
  · rw [update_backlog_noop hff] at hok
    have hdb := Except.ok.inj hok
    subst hdb
    exact hdense
  · have hok' : update_backlog db backlog.id backlog.user_id (orderUpdB ov) today =
        .ok db' := hok
    rcases ov with _ | m
    · rw [update_backlog_order_invalid hff (Or.inl rfl)] at hok'
      exact absurd hok' (by simp)
    · by_cases h1 : 1 ≤ m
      · rw [update_backlog_order_ok hff h1] at hok'
        have hdb := Except.ok.inj hok'
        subst hdb
        exact BacklogsDense_move db backlog m hid hmem hdense h1
      · rw [update_backlog_order_invalid hff (Or.inr ⟨m, rfl, by omega⟩)] at hok'
        exact absurd hok' (by simp)
  · rw [update_backlog_detail_ok hff] at hok
    have hdb := Except.ok.inj hok
    subst hdb
    refine BacklogsDense_of_order_preserving ?_ ?_ hdense <;>
      intro x <;> dsimp only <;> split_ifs <;> rfl

/-- Every successful DELETE /backlogs keeps all backlog groups dense in the
final state. -/
theorem BacklogsDense_delete {db db' : List Backlog} {bid uid : Nat}
    (hid : BacklogIdsNodup db) (hdense : BacklogsDense db)
    (hok : delete_backlog db bid uid = .ok db') : BacklogsDense db' := by
  rcases hff : firstBacklog db bid uid with _ | backlog
  · unfold delete_backlog delete_backlog_run at hok
    rw [hff] at hok
    exact absurd hok (by simp [Except.map])
  obtain ⟨hmem, hbid, huid⟩ := firstBacklog_some_spec hff
  subst hbid
  subst huid
  unfold delete_backlog at hok
  rw [delete_backlog_run_eq hff] at hok
  simp only [Except.map] at hok
  have hdb := Except.ok.inj hok
  subst hdb
  exact BacklogsDense_delete_final db backlog hid hmem hdense

/-- C1 (corrected): the dense-rank invariant — every (user, date) task group
and every user's backlog group carries exactly the ranks {1, ..., N} — is
preserved by task creation, by every successful task update (order move, date
regroup, title/note edit, marking complete; marking incomplete only when the
task already holds the last rank of its group), by task deletion, and by
backlog creation, update and deletion. -/
theorem dense_rank_invariant_preserved :
    (∀ (db : List Task) (uid : Nat) (c : TaskCreate) (new_id : Nat),
      TasksDense db → TasksDense (create_task db uid c new_id)) ∧
    (∀ (db db' : List Task) (tid uid : Nat) (u : TaskUpdate),
      TaskIdsNodup db → TasksDense db →
      (∀ task v, firstTask db tid uid = some task → u.is_completed = some v →
        truthy v = false →
        task.order = ((db.filter (sameGroup task.user_id task.date)).length : Int)) →
      update_task db tid uid u = .ok db' → TasksDense db') ∧
    (∀ (db db' : List Task) (tid uid : Nat),
      TaskIdsNodup db → TasksDense db →
      delete_task db tid uid = .ok db' → TasksDense db') ∧
    (∀ (db : List Backlog) (uid : Nat) (c : BacklogCreate) (new_id : Nat) (today : Int),
      BacklogsDense db → BacklogsDense (create_backlog db uid c new_id today)) ∧
    (∀ (db db' : List Backlog) (bid uid : Nat) (u : BacklogUpdate) (today : Int),
      BacklogIdsNodup db → BacklogsDense db →
      update_backlog db bid uid u today = .ok db' → BacklogsDense db') ∧
    (∀ (db db' : List Backlog) (bid uid : Nat),
      BacklogIdsNodup db → BacklogsDense db →
      delete_backlog db bid uid = .ok db' → BacklogsDense db') :=
  ⟨fun db uid c new_id h => TasksDense_create db uid c new_id h,
   fun _ _ _ _ _ hid hdense hinc hok => TasksDense_update hid hdense hinc hok,
   fun _ _ _ _ hid hdense hok => TasksDense_delete hid hdense hok,
   fun db uid c new_id today h => BacklogsDense_create db uid c new_id today h,
   fun _ _ _ _ _ _ hid hdense hok => BacklogsDense_update hid hdense hok,
   fun _ _ _ _ hid hdense hok => BacklogsDense_delete hid hdense hok⟩

/-- C1 witness: on concrete dense stores, creation, an order move and a delete
for tasks and for backlogs all yield dense stores, instantiating every
conjunct of the invariant-preservation theorem. -/
theorem dense_rank_invariant_preserved_witness :
    (TasksDense dbDel ∧ TasksDense (create_task dbDel 1 (namedCreate "w") 50)) ∧
    (TaskIdsNodup dbDel ∧ TasksDense dbDel ∧
      update_task dbDel 1 1 (orderUpd (some 2)) =
        .ok [sampleTask 1 1 0 2, sampleTask 2 1 0 1] ∧
      TasksDense [sampleTask 1 1 0 2, sampleTask 2 1 0 1]) ∧
    (TaskIdsNodup dbDel ∧ TasksDense dbDel ∧
      delete_task dbDel 1 1 = .ok [sampleTask 2 1 0 1] ∧
      TasksDense [sampleTask 2 1 0 1]) ∧
    (BacklogsDense dbDelB ∧
      BacklogsDense (create_backlog dbDelB 1 { detail := some "w" } 50 0)) ∧
    (BacklogIdsNodup dbDelB ∧ BacklogsDense dbDelB ∧
      update_backlog dbDelB 1 1 (orderUpdB (some 2)) 0 =
        .ok [sampleBacklog 1 1 0 2, sampleBacklog 2 1 0 1] ∧
      BacklogsDense [sampleBacklog 1 1 0 2, sampleBacklog 2 1 0 1]) ∧
    (BacklogIdsNodup dbDelB ∧ BacklogsDense dbDelB ∧
      delete_backlog dbDelB 1 1 = .ok [sampleBacklog 2 1 0 1] ∧
      BacklogsDense [sampleBacklog 2 1 0 1]) :=
  ⟨⟨by decide, dense_rank_invariant_preserved.1 dbDel 1 (namedCreate "w") 50 (by decide)⟩,
   ⟨by decide, by decide, by decide,
    dense_rank_invariant_preserved.2.1 dbDel [sampleTask 1 1 0 2, sampleTask 2 1 0 1]
      1 1 (orderUpd (some 2)) (by decide) (by decide)
      (fun task v _ hc _ => Option.noConfusion hc) (by decide)⟩,
   ⟨by decide, by decide, by decide,
    dense_rank_invariant_preserved.2.2.1 dbDel [sampleTask 2 1 0 1] 1 1
      (by decide) (by decide) (by decide)⟩,
   ⟨by decide,
    dense_rank_invariant_preserved.2.2.2.1 dbDelB 1 { detail := some "w" } 50 0 (by decide)⟩,
   ⟨by decide, by decide, by decide,
    dense_rank_invariant_preserved.2.2.2.2.1 dbDelB
      [sampleBacklog 1 1 0 2, sampleBacklog 2 1 0 1] 1 1 (orderUpdB (some 2)) 0
      (by decide) (by decide) (by decide)⟩,
   ⟨by decide, by decide, by decide,
    dense_rank_invariant_preserved.2.2.2.2.2 dbDelB [sampleBacklog 2 1 0 1] 1 1
      (by decide) (by decide) (by decide)⟩⟩

/-- C1 counterexample: in a dense four-member group, marking the task at rank
2 incomplete increments every other member's rank and sets the target to rank
1, leaving the ranks {2, 1, 4, 5} — a gap at 3 and a rank above the member
count — so the claimed invariant does not survive the completed-flag toggle
in general. -/
theorem dense_rank_invariant_counterexample :
    TasksDense dbI ∧ TaskIdsNodup dbI ∧
    update_task dbI 2 1 incompleteUpd =
      .ok [sampleTask 1 1 0 2, sampleTask 2 1 0 1, sampleTask 3 1 0 4,
        sampleTask 4 1 0 5] ∧
    ¬ TasksDense [sampleTask 1 1 0 2, sampleTask 2 1 0 1, sampleTask 3 1 0 4,
        sampleTask 4 1 0 5] := by decide

end Minibunn
